import Mathlib

/-!
Verification of the discord-agent-gateway core against its specification.

The development shallowly embeds the Python sources:
  * `src/utils/message_splitter.py`   (outbound chunker)
  * `src/agents/llm_agent.py`         (LLM conversational agent and its memory)
  * `src/services/discord/handlers/message_handler.py` (inbound routing decision)
  * `src/services/discord/bot_pool.py` and
    `src/services/discord/scheduler.py` (connection pool and reconciliation)

Python strings are modelled as `List Char` (`PyStr`); `len` is `List.length`,
concatenation is `++`.  Machine integers do not occur.  All definitions are
executable so concrete runs can be checked with `decide`.
-/

namespace Gateway

/-- Python strings, modelled as lists of characters. -/
abbrev PyStr := List Char

/-- Python `str.isspace` on the ASCII whitespace characters (the inputs used
in counterexamples are ASCII, where this matches Python exactly). -/
def pyIsSpace (c : Char) : Bool :=
  c = ' ' || c = '\t' || c = '\n' || c = '\r' || c = '\x0b' || c = '\x0c'

/-- Python `str.strip()`: remove leading and trailing whitespace. -/
def pyStrip (s : PyStr) : PyStr :=
  ((s.dropWhile pyIsSpace).reverse.dropWhile pyIsSpace).reverse

/-- Helper for `pySplitWS`: `cur` is the word being accumulated (reversed). -/
def pySplitWSAux (cur : PyStr) : PyStr → List PyStr
  | [] => if cur = [] then [] else [cur.reverse]
  | c :: cs =>
    if pyIsSpace c then
      if cur = [] then pySplitWSAux [] cs else cur.reverse :: pySplitWSAux [] cs
    else pySplitWSAux (c :: cur) cs

/-- Python `str.split()` with no argument: split on whitespace runs,
discarding empty pieces.  Used by `_split_by_words` (`content.split()`). -/
def pySplitWS (s : PyStr) : List PyStr := pySplitWSAux [] s

/-- The sentence-terminal punctuation class `[.!?]` of
`re.split(r"([.!?]+\s+)", content)` in `_split_simple`. -/
def isSentPunct (c : Char) : Bool :=
  c = '.' || c = '!' || c = '?'

/-- One-character-at-a-time scanner equivalent to walking
`re.split(r"([.!?]+\s+)", content)` in (text, separator) pairs, as
`_split_simple` does, and emitting each `full_sentence = text + separator`.
A separator is a maximal run of `[.!?]` followed by a maximal nonempty
whitespace run (the two character classes are disjoint, so the regex engine's
leftmost-greedy matching yields exactly these separators).  `textR` holds the
current text part, `punctR` a pending punctuation run, and `wsR` a pending
whitespace run following that punctuation — each reversed. -/
def splitSentencesAux (textR punctR wsR : PyStr) : PyStr → List PyStr
  | [] =>
    if wsR = [] then [textR.reverse ++ punctR.reverse]
    else [textR.reverse ++ punctR.reverse ++ wsR.reverse, []]
  | c :: cs =>
    if wsR ≠ [] then
      if pyIsSpace c then splitSentencesAux textR punctR (c :: wsR) cs
      else
        (textR.reverse ++ punctR.reverse ++ wsR.reverse) ::
          (if isSentPunct c then splitSentencesAux [] [c] [] cs
           else splitSentencesAux [c] [] [] cs)
    else if punctR ≠ [] then
      if isSentPunct c then splitSentencesAux textR (c :: punctR) [] cs
      else if pyIsSpace c then splitSentencesAux textR punctR [c] cs
      else splitSentencesAux (c :: (punctR ++ textR)) [] [] cs
    else
      if isSentPunct c then splitSentencesAux textR [c] [] cs
      else splitSentencesAux (c :: textR) [] [] cs

/-- Full-sentence list consumed by the loop of `_split_simple`. -/
def splitSentences (s : PyStr) : List PyStr := splitSentencesAux [] [] [] s

/-- Embedding of Python `word[i:i+max_length] for i in range(0, len(word),
max_length)` from `_split_by_words`: `range(0, n, max)` has `⌈n/max⌉`
elements and the `k`-th slice is `word[k*max : k*max + max]`.  Python raises
`ValueError` when `max = 0`; that case is unreachable under the positivity
hypotheses used in the theorems below (here it yields `[]`). -/
def sliceBy (w : PyStr) (max : Nat) : List PyStr :=
  (List.range ((w.length + max - 1) / max)).map
    (fun k => (w.drop (k * max)).take max)

/-- Main loop of `_split_by_words` over `content.split()`. -/
def splitByWordsAux (chunks : List PyStr) (cur : PyStr) (max : Nat) :
    List PyStr → List PyStr
  | [] => if cur = [] then chunks else chunks ++ [pyStrip cur]
  | w :: ws =>
    if cur.length + w.length + 1 > max then
      let chunks1 := if cur = [] then chunks else chunks ++ [pyStrip cur]
      if w.length > max then splitByWordsAux (chunks1 ++ sliceBy w max) [] max ws
      else splitByWordsAux chunks1 w max ws
    else splitByWordsAux chunks (cur ++ (if cur = [] then [] else [' ']) ++ w) max ws

/-- Embedding of `_split_by_words(content, max_length)`. -/
def splitByWords (content : PyStr) (max : Nat) : List PyStr :=
  splitByWordsAux [] [] max (pySplitWS content)

/-- Sentence loop of `_split_simple` over the full-sentence list. -/
def splitSimpleAux (chunks : List PyStr) (cur : PyStr) (max : Nat) :
    List PyStr → List PyStr
  | [] => if cur = [] then chunks else chunks ++ [pyStrip cur]
  | f :: fs =>
    if cur.length + f.length > max then
      let chunks1 := if cur = [] then chunks else chunks ++ [pyStrip cur]
      if f.length > max then
        let wcs := splitByWords f max
        splitSimpleAux (chunks1 ++ wcs.dropLast) (wcs.getLastD []) max fs
      else splitSimpleAux chunks1 f max fs
    else splitSimpleAux chunks (cur ++ f) max fs

/-- Embedding of `_split_simple(content, max_length, preserve_sentences)`. -/
def splitSimple (content : PyStr) (max : Nat) (preserveSentences : Bool) :
    List PyStr :=
  if preserveSentences then splitSimpleAux [] [] max (splitSentences content)
  else splitByWords content max

/-- The code-fence delimiter, three backquote characters (`\x60`). -/
def fenceStr : PyStr := ['\x60', '\x60', '\x60']

/-- Find the first occurrence of the fence: returns the text before it and
the text after it.  `none` when the string contains no fence. -/
def splitAtFence : PyStr → Option (PyStr × PyStr)
  | [] => none
  | c :: cs =>
    if fenceStr.isPrefixOf (c :: cs) then some ([], (c :: cs).drop 3)
    else (splitAtFence cs).map (fun p => (c :: p.1, p.2))

/-- Bridge between the boolean test `isPrefixOf` used by the embedding and
its propositional form. -/
theorem isPrefixOf_true (l₁ l₂ : PyStr) :
    l₁.isPrefixOf l₂ = true ↔ List.IsPrefix l₁ l₂ :=
  List.isPrefixOf_iff_prefix

/-- Decomposition of `splitAtFence`: a successful find splits the string as
`before ++ fence ++ after`. -/
theorem splitAtFence_eq (s a b : PyStr) (h : splitAtFence s = some (a, b)) :
    s = a ++ fenceStr ++ b := by
  induction s generalizing a b with
  | nil => simp [splitAtFence] at h
  | cons c cs ih =>
    simp only [splitAtFence] at h
    split at h
    · rename_i hpre
      obtain ⟨t, ht⟩ := (isPrefixOf_true _ _).mp hpre
      simp only [Option.some.injEq, Prod.mk.injEq] at h
      obtain ⟨ha, hb⟩ := h
      subst ha
      rw [← ht] at hb ⊢
      simp only [List.drop_append_eq_append_drop] at hb
      simp [fenceStr] at hb
      simp [← hb]
    · rw [Option.map_eq_some'] at h
      obtain ⟨p, hp, hpe⟩ := h
      obtain ⟨ha, hb⟩ := Prod.mk.injEq .. ▸ hpe
      have := ih p.1 p.2 (by simpa using hp)
      subst hb
      rw [← ha, this]
      simp

theorem splitAtFence_len (s a b : PyStr) (h : splitAtFence s = some (a, b)) :
    b.length + 3 ≤ s.length := by
  have he := splitAtFence_eq s a b h
  rw [he]
  simp [fenceStr]

/-- Fuelled worker for `splitCodeParts`.  Each step consumes at least six
characters of the string (two fences), so fuel `s.length` never runs out;
the fuel only serves to make the recursion structural. -/
def splitCodePartsAux : Nat → PyStr → List PyStr
  | 0, s => [s]
  | fuel + 1, s =>
    match splitAtFence s with
    | none => [s]
    | some (pre, r1) =>
      match splitAtFence r1 with
      | none => [s]
      | some (mid, r2) =>
        pre :: (fenceStr ++ mid ++ fenceStr) :: splitCodePartsAux fuel r2

/-- Embedding of `re.split(r"(```[\s\S]*?```)", content)` from
`_split_with_code_blocks`: the list alternates plain text and complete
(lazily matched) fenced blocks; text with no complete remaining pair stays
one plain part.  Like `re.split`, empty parts are kept. -/
def splitCodeParts (s : PyStr) : List PyStr := splitCodePartsAux s.length s

/-- Embedding of Python `"```" in content`. -/
def containsFence (s : PyStr) : Bool := (splitAtFence s).isSome

/-- Inner loop of the oversized-code-block path of `_split_with_code_blocks`
(lines 61-67): walk the block's interior lines, closing and re-opening the
fence whenever the running chunk would overflow.  Returns the accumulated
chunks and the final `temp_chunk` (before the closing fence is appended). -/
def splitCodeLinesAux (chunks : List PyStr) (codeLang : PyStr) (temp : PyStr)
    (max : Nat) : List PyStr → List PyStr × PyStr
  | [] => (chunks, temp)
  | l :: ls =>
    if temp.length + l.length + 5 > max then
      splitCodeLinesAux (chunks ++ [temp ++ fenceStr]) codeLang
        (codeLang ++ ['\n'] ++ l ++ ['\n']) max ls
    else splitCodeLinesAux chunks codeLang (temp ++ l ++ ['\n']) max ls

/-- The oversized-code-block branch of `_split_with_code_blocks` (lines
55-73): split the block by its lines, then flush any pending plain chunk and
append the final code chunk.  Returns the new chunk list and the new
`current_chunk` (always empty afterwards). -/
def splitBigCodeBlock (chunks : List PyStr) (cur : PyStr) (part : PyStr)
    (max : Nat) : List PyStr × PyStr :=
  let lines := part.splitOn '\n'
  let codeLang := match lines with | [] => fenceStr | l0 :: _ => l0
  let middle := (lines.drop 1).dropLast
  let res := splitCodeLinesAux chunks codeLang (codeLang ++ ['\n']) max middle
  let chunks2 := res.1
  let temp2 := res.2 ++ fenceStr
  let chunks3 := if cur = [] then chunks2 else chunks2 ++ [cur]
  (chunks3 ++ [temp2], [])

/-- Main loop of `_split_with_code_blocks` over the parts list. -/
def swcbAux (chunks : List PyStr) (cur : PyStr) (max : Nat) :
    List PyStr → List PyStr
  | [] => if cur = [] then chunks else chunks ++ [cur]
  | p :: ps =>
    if fenceStr.isPrefixOf p && fenceStr.isSuffixOf p then
      if p.length > max then
        let res := splitBigCodeBlock chunks cur p max
        swcbAux res.1 res.2 max ps
      else
        if cur.length + p.length > max then
          swcbAux (if cur = [] then chunks else chunks ++ [cur]) p max ps
        else swcbAux chunks (cur ++ p) max ps
    else
      if cur.length + p.length > max then
        let chunks1 := if cur = [] then chunks else chunks ++ [cur]
        let tcs := splitSimple p max true
        swcbAux (chunks1 ++ tcs.dropLast) (tcs.getLastD []) max ps
      else swcbAux chunks (cur ++ p) max ps

/-- Embedding of `_split_with_code_blocks(content, max_length)`. -/
def splitWithCodeBlocks (content : PyStr) (max : Nat) : List PyStr :=
  swcbAux [] [] max (splitCodeParts content)

/-- Embedding of `split_message(content, max_length, preserve_code_blocks,
preserve_sentences)`. -/
def splitMessage (content : PyStr) (max : Nat)
    (preserveCodeBlocks preserveSentences : Bool) : List PyStr :=
  if content.length ≤ max then [content]
  else if preserveCodeBlocks && containsFence content then
    splitWithCodeBlocks content max
  else splitSimple content max preserveSentences

/-- The call used by the message handler and the claims:
`split_message(text, max_length)` with the default flags. -/
def splitMessageD (content : PyStr) (max : Nat) : List PyStr :=
  splitMessage content max true true

/-- Embedding of `estimate_chunks(content, max_length)`. -/
def estimateChunks (content : PyStr) (max : Nat) : Nat :=
  if content.length ≤ max then 1 else (content.length + max - 1) / max

/-! ## Basic lemmas about the chunker's string helpers -/

theorem pyStrip_sublist (s : PyStr) : List.Sublist (pyStrip s) s := by
  unfold pyStrip
  have h1 : List.Sublist (s.dropWhile pyIsSpace) s := (List.dropWhile_sublist _)
  have h2 : List.Sublist ((s.dropWhile pyIsSpace).reverse.dropWhile pyIsSpace)
      (s.dropWhile pyIsSpace).reverse := (List.dropWhile_sublist _)
  have h3 := h2.reverse
  rw [List.reverse_reverse] at h3
  exact h3.trans h1

theorem pyStrip_length_le (s : PyStr) : (pyStrip s).length ≤ s.length :=
  (pyStrip_sublist s).length_le

theorem pyStrip_subset (s : PyStr) : ∀ c ∈ pyStrip s, c ∈ s :=
  fun _ hc => (pyStrip_sublist s).subset hc

/-- Dropping whitespace does not change the non-whitespace characters. -/
theorem filter_dropWhile_ws (l : PyStr) :
    (l.dropWhile pyIsSpace).filter (fun c => !pyIsSpace c)
      = l.filter (fun c => !pyIsSpace c) := by
  induction l with
  | nil => rfl
  | cons c cs ih =>
    by_cases h : pyIsSpace c
    · rw [List.dropWhile_cons_of_pos h, ih, List.filter_cons]
      simp [h]
    · rw [List.dropWhile_cons_of_neg h]

theorem pyStrip_filter (s : PyStr) :
    (pyStrip s).filter (fun c => !pyIsSpace c)
      = s.filter (fun c => !pyIsSpace c) := by
  unfold pyStrip
  rw [List.filter_reverse, filter_dropWhile_ws, ← List.filter_reverse,
    List.reverse_reverse, filter_dropWhile_ws]

theorem splitSentencesAux_flatten (s : PyStr) : ∀ textR punctR wsR,
    (splitSentencesAux textR punctR wsR s).flatten
      = textR.reverse ++ punctR.reverse ++ wsR.reverse ++ s := by
  induction s with
  | nil =>
    intro textR punctR wsR
    by_cases h : wsR = [] <;> simp [splitSentencesAux, h]
  | cons c cs ih =>
    intro textR punctR wsR
    simp only [splitSentencesAux]
    split_ifs <;> simp_all [ih]

theorem splitSentences_flatten (s : PyStr) : (splitSentences s).flatten = s := by
  simp [splitSentences, splitSentencesAux_flatten]

/-- Every character of every full sentence comes from the original text. -/
theorem splitSentences_mem (s f : PyStr) (hf : f ∈ splitSentences s) :
    ∀ c ∈ f, c ∈ s := by
  intro c hc
  have : c ∈ (splitSentences s).flatten := List.mem_flatten.mpr ⟨f, hf, hc⟩
  rwa [splitSentences_flatten] at this

theorem pySplitWSAux_flatten (s : PyStr) : ∀ cur,
    (pySplitWSAux cur s).flatten
      = cur.reverse ++ s.filter (fun c => !pyIsSpace c) := by
  induction s with
  | nil =>
    intro cur
    by_cases h : cur = [] <;> simp [pySplitWSAux, h]
  | cons c cs ih =>
    intro cur
    simp only [pySplitWSAux]
    split_ifs <;> simp_all [List.filter_cons]

theorem pySplitWS_flatten (s : PyStr) :
    (pySplitWS s).flatten = s.filter (fun c => !pyIsSpace c) := by
  simp [pySplitWS, pySplitWSAux_flatten]

/-- Every character of every word is a non-whitespace character of `s`. -/
theorem pySplitWS_mem (s w : PyStr) (hw : w ∈ pySplitWS s) :
    ∀ c ∈ w, c ∈ s ∧ pyIsSpace c = false := by
  intro c hc
  have : c ∈ (pySplitWS s).flatten := List.mem_flatten.mpr ⟨w, hw, hc⟩
  rw [pySplitWS_flatten] at this
  have := List.mem_filter.mp this
  simpa using this

theorem sliceBy_length_le (w : PyStr) (max : Nat) :
    ∀ x ∈ sliceBy w max, x.length ≤ max := by
  intro x hx
  simp only [sliceBy, List.mem_map] at hx
  obtain ⟨k, _, hk⟩ := hx
  rw [← hk]
  simp [List.length_take]

theorem sliceBy_subset (w : PyStr) (max : Nat) :
    ∀ x ∈ sliceBy w max, ∀ c ∈ x, c ∈ w := by
  intro x hx c hc
  simp only [sliceBy, List.mem_map] at hx
  obtain ⟨k, _, hk⟩ := hx
  rw [← hk] at hc
  exact List.drop_subset _ _ (List.take_subset _ _ hc)

theorem sliceBy_flatten_aux (w : PyStr) (max : Nat) : ∀ n,
    ((List.range n).map (fun k => (w.drop (k * max)).take max)).flatten
      = w.take (n * max) := by
  intro n
  induction n with
  | zero => simp
  | succ n ih =>
    rw [List.range_succ, List.map_append, List.flatten_append, ih]
    simp only [List.map_cons, List.map_nil, List.flatten_cons, List.flatten_nil,
      List.append_nil]
    rw [← List.take_add]
    ring_nf

/-- For positive `max` the slices reassemble the word exactly. -/
theorem sliceBy_flatten (w : PyStr) (max : Nat) (h : 0 < max) :
    (sliceBy w max).flatten = w := by
  rw [sliceBy, sliceBy_flatten_aux]
  apply List.take_of_length_le
  obtain ⟨q, r, hr, hqr⟩ : ∃ q r, r < max ∧ max * q + r = w.length + max - 1 :=
    ⟨(w.length + max - 1) / max, (w.length + max - 1) % max,
      Nat.mod_lt _ h, Nat.div_add_mod _ _⟩
  have : (w.length + max - 1) / max = q := by
    rw [← hqr, Nat.mul_add_div h, Nat.div_eq_of_lt hr]
    omega
  rw [this, Nat.mul_comm]
  omega

theorem splitByWordsAux_filter (max : Nat) (hm : 0 < max) : ∀ (words : List PyStr)
    (chunks : List PyStr) (cur : PyStr),
    (splitByWordsAux chunks cur max words).flatten.filter (fun c => !pyIsSpace c)
      = (chunks.flatten ++ cur ++ words.flatten).filter (fun c => !pyIsSpace c) := by
  intro words
  induction words with
  | nil =>
    intro chunks cur
    by_cases h : cur = [] <;>
      simp [splitByWordsAux, h, List.filter_append, pyStrip_filter]
  | cons w ws ih =>
    intro chunks cur
    have hsp : pyIsSpace ' ' = true := by
      simp [pyIsSpace]
    simp only [splitByWordsAux]
    split_ifs <;> rw [ih] <;>
      simp [*, List.filter_append, pyStrip_filter, sliceBy_flatten _ _ hm, hsp]

theorem splitByWords_filter (content : PyStr) (max : Nat) (hm : 0 < max) :
    (splitByWords content max).flatten.filter (fun c => !pyIsSpace c)
      = content.filter (fun c => !pyIsSpace c) := by
  rw [splitByWords, splitByWordsAux_filter max hm]
  simp [pySplitWS_flatten, List.filter_filter]

theorem splitByWordsAux_bound (max : Nat) : ∀ (words : List PyStr)
    (chunks : List PyStr) (cur : PyStr),
    (∀ x ∈ chunks, x.length ≤ max) → cur.length ≤ max →
    ∀ x ∈ splitByWordsAux chunks cur max words, x.length ≤ max := by
  intro words
  induction words with
  | nil =>
    intro chunks cur hc hcur x hx
    simp only [splitByWordsAux] at hx
    by_cases h : cur = []
    · rw [if_pos h] at hx
      exact hc x hx
    · rw [if_neg h] at hx
      rcases List.mem_append.mp hx with h1 | h1
      · exact hc x h1
      · simp at h1
        exact h1 ▸ le_trans (pyStrip_length_le cur) hcur
  | cons w ws ih =>
    intro chunks cur hc hcur x hx
    simp only [splitByWordsAux] at hx
    have hchunks1 : ∀ y ∈ (if cur = [] then chunks else chunks ++ [pyStrip cur]),
        y.length ≤ max := by
      intro y hy
      by_cases h : cur = []
      · rw [if_pos h] at hy
        exact hc y hy
      · rw [if_neg h] at hy
        rcases List.mem_append.mp hy with h1 | h1
        · exact hc y h1
        · simp at h1
          exact h1 ▸ le_trans (pyStrip_length_le cur) hcur
    by_cases h1 : cur.length + w.length + 1 > max
    · rw [if_pos h1] at hx
      by_cases h2 : w.length > max
      · rw [if_pos h2] at hx
        refine ih _ [] ?_ (by simp) x hx
        intro y hy
        rcases List.mem_append.mp hy with h3 | h3
        · exact hchunks1 y h3
        · exact sliceBy_length_le w max y h3
      · rw [if_neg h2] at hx
        exact ih _ w hchunks1 (by omega) x hx
    · rw [if_neg h1] at hx
      refine ih _ _ hc ?_ x hx
      by_cases h : cur = [] <;> simp [h] <;> omega

theorem splitByWords_bound (content : PyStr) (max : Nat) :
    ∀ x ∈ splitByWords content max, x.length ≤ max :=
  splitByWordsAux_bound max (pySplitWS content) [] [] (by simp) (by simp)

theorem splitByWordsAux_chars (max : Nat) (P : Char → Prop) (hsp : P ' ') :
    ∀ (words : List PyStr) (chunks : List PyStr) (cur : PyStr),
    (∀ x ∈ chunks, ∀ c ∈ x, P c) → (∀ c ∈ cur, P c) →
    (∀ w ∈ words, ∀ c ∈ w, P c) →
    ∀ x ∈ splitByWordsAux chunks cur max words, ∀ c ∈ x, P c := by
  intro words
  induction words with
  | nil =>
    intro chunks cur hc hcur _ x hx
    simp only [splitByWordsAux] at hx
    by_cases h : cur = []
    · rw [if_pos h] at hx
      exact hc x hx
    · rw [if_neg h] at hx
      rcases List.mem_append.mp hx with h1 | h1
      · exact hc x h1
      · simp at h1
        exact fun c hcm => hcur c (pyStrip_subset cur c (h1 ▸ hcm))
  | cons w ws ih =>
    intro chunks cur hc hcur hw x hx
    simp only [splitByWordsAux] at hx
    have hwhead : ∀ c ∈ w, P c := hw w (by simp)
    have hwtail : ∀ y ∈ ws, ∀ c ∈ y, P c := fun y hy => hw y (by simp [hy])
    have hchunks1 : ∀ y ∈ (if cur = [] then chunks else chunks ++ [pyStrip cur]),
        ∀ c ∈ y, P c := by
      intro y hy
      by_cases h : cur = []
      · rw [if_pos h] at hy
        exact hc y hy
      · rw [if_neg h] at hy
        rcases List.mem_append.mp hy with h1 | h1
        · exact hc y h1
        · simp at h1
          exact fun c hcm => hcur c (pyStrip_subset cur c (h1 ▸ hcm))
    by_cases h1 : cur.length + w.length + 1 > max
    · rw [if_pos h1] at hx
      by_cases h2 : w.length > max
      · rw [if_pos h2] at hx
        refine ih _ [] ?_ (by simp) hwtail x hx
        intro y hy
        rcases List.mem_append.mp hy with h3 | h3
        · exact hchunks1 y h3
        · exact fun c hcm => hwhead c (sliceBy_subset w max y h3 c hcm)
      · rw [if_neg h2] at hx
        exact ih _ w hchunks1 hwhead hwtail x hx
    · rw [if_neg h1] at hx
      refine ih _ _ hc ?_ hwtail x hx
      intro c hcm
      rcases List.mem_append.mp hcm with h3 | h3
      · rcases List.mem_append.mp h3 with h4 | h4
        · exact hcur c h4
        · by_cases h : cur = [] <;> simp [h] at h4
          exact h4 ▸ hsp
      · exact hwhead c h3

theorem dropLast_flatten_getLastD (l : List PyStr) :
    l.dropLast.flatten ++ l.getLastD [] = l.flatten := by
  rcases List.eq_nil_or_concat l with rfl | ⟨init, last, rfl⟩
  · rfl
  · rw [List.concat_eq_append, List.dropLast_concat, List.getLastD_concat]
    simp

theorem getLastD_mem_or (l : List PyStr) : l.getLastD [] = [] ∨ l.getLastD [] ∈ l := by
  rcases List.eq_nil_or_concat l with rfl | ⟨init, last, rfl⟩
  · exact Or.inl rfl
  · right
    rw [List.concat_eq_append, List.getLastD_concat]
    simp

theorem splitSimpleAux_filter (max : Nat) (hm : 0 < max) : ∀ (fulls : List PyStr)
    (chunks : List PyStr) (cur : PyStr),
    (splitSimpleAux chunks cur max fulls).flatten.filter (fun c => !pyIsSpace c)
      = (chunks.flatten ++ cur ++ fulls.flatten).filter (fun c => !pyIsSpace c) := by
  intro fulls
  induction fulls with
  | nil =>
    intro chunks cur
    by_cases h : cur = [] <;>
      simp [splitSimpleAux, h, List.filter_append, pyStrip_filter]
  | cons f fs ih =>
    intro chunks cur
    simp only [splitSimpleAux]
    by_cases h1 : cur.length + f.length > max
    · rw [if_pos h1]
      by_cases h2 : f.length > max
      · rw [if_pos h2, ih]
        have hjoin : (splitByWords f max).dropLast.flatten
            ++ ((splitByWords f max).getLastD [] ++ fs.flatten)
            = (splitByWords f max).flatten ++ fs.flatten := by
          rw [← List.append_assoc, dropLast_flatten_getLastD]
        simp only [List.flatten_append, List.flatten_cons, List.append_assoc]
        rw [hjoin]
        by_cases hcur : cur = [] <;>
          simp only [if_pos, if_neg, hcur, ite_true, ite_false, List.flatten_append,
            List.flatten_cons, List.flatten_nil, List.append_nil, List.nil_append,
            List.append_assoc, List.filter_append, pyStrip_filter,
            splitByWords_filter f max hm]
      · rw [if_neg h2, ih]
        by_cases hcur : cur = [] <;>
          simp only [hcur, ite_true, ite_false, List.flatten_append,
            List.flatten_cons, List.flatten_nil, List.append_nil, List.nil_append,
            List.append_assoc, List.filter_append, pyStrip_filter]
    · rw [if_neg h1, ih]
      simp [List.filter_append, List.append_assoc]

theorem splitSimpleAux_bound (max : Nat) : ∀ (fulls : List PyStr)
    (chunks : List PyStr) (cur : PyStr),
    (∀ x ∈ chunks, x.length ≤ max) → cur.length ≤ max →
    ∀ x ∈ splitSimpleAux chunks cur max fulls, x.length ≤ max := by
  intro fulls
  induction fulls with
  | nil =>
    intro chunks cur hc hcur x hx
    simp only [splitSimpleAux] at hx
    by_cases h : cur = []
    · rw [if_pos h] at hx
      exact hc x hx
    · rw [if_neg h] at hx
      rcases List.mem_append.mp hx with h1 | h1
      · exact hc x h1
      · simp at h1
        exact h1 ▸ le_trans (pyStrip_length_le cur) hcur
  | cons f fs ih =>
    intro chunks cur hc hcur x hx
    simp only [splitSimpleAux] at hx
    have hchunks1 : ∀ y ∈ (if cur = [] then chunks else chunks ++ [pyStrip cur]),
        y.length ≤ max := by
      intro y hy
      by_cases h : cur = []
      · rw [if_pos h] at hy
        exact hc y hy
      · rw [if_neg h] at hy
        rcases List.mem_append.mp hy with h1 | h1
        · exact hc y h1
        · simp at h1
          exact h1 ▸ le_trans (pyStrip_length_le cur) hcur
    by_cases h1 : cur.length + f.length > max
    · rw [if_pos h1] at hx
      by_cases h2 : f.length > max
      · rw [if_pos h2] at hx
        refine ih _ _ ?_ ?_ x hx
        · intro y hy
          rcases List.mem_append.mp hy with h3 | h3
          · exact hchunks1 y h3
          · exact splitByWords_bound f max y (List.dropLast_subset _ h3)
        · rcases getLastD_mem_or (splitByWords f max) with h4 | h4
          · rw [h4]
            simp
          · exact splitByWords_bound f max _ h4
      · rw [if_neg h2] at hx
        exact ih _ f hchunks1 (by omega) x hx
    · rw [if_neg h1] at hx
      refine ih _ _ hc ?_ x hx
      rw [List.length_append]
      omega

theorem splitSimpleAux_chars (max : Nat) (P : Char → Prop) (hsp : P ' ') :
    ∀ (fulls : List PyStr) (chunks : List PyStr) (cur : PyStr),
    (∀ x ∈ chunks, ∀ c ∈ x, P c) → (∀ c ∈ cur, P c) →
    (∀ f ∈ fulls, ∀ c ∈ f, P c) →
    ∀ x ∈ splitSimpleAux chunks cur max fulls, ∀ c ∈ x, P c := by
  intro fulls
  induction fulls with
  | nil =>
    intro chunks cur hc hcur _ x hx
    simp only [splitSimpleAux] at hx
    by_cases h : cur = []
    · rw [if_pos h] at hx
      exact hc x hx
    · rw [if_neg h] at hx
      rcases List.mem_append.mp hx with h1 | h1
      · exact hc x h1
      · simp at h1
        exact fun c hcm => hcur c (pyStrip_subset cur c (h1 ▸ hcm))
  | cons f fs ih =>
    intro chunks cur hc hcur hf x hx
    simp only [splitSimpleAux] at hx
    have hfhead : ∀ c ∈ f, P c := hf f (by simp)
    have hftail : ∀ y ∈ fs, ∀ c ∈ y, P c := fun y hy => hf y (by simp [hy])
    have hwcs : ∀ y ∈ splitByWords f max, ∀ c ∈ y, P c := by
      refine splitByWordsAux_chars max P hsp _ [] [] (by simp) (by simp) ?_
      intro w hw c hcm
      exact hfhead c (pySplitWS_mem f w hw c hcm).1
    have hchunks1 : ∀ y ∈ (if cur = [] then chunks else chunks ++ [pyStrip cur]),
        ∀ c ∈ y, P c := by
      intro y hy
      by_cases h : cur = []
      · rw [if_pos h] at hy
        exact hc y hy
      · rw [if_neg h] at hy
        rcases List.mem_append.mp hy with h1 | h1
        · exact hc y h1
        · simp at h1
          exact fun c hcm => hcur c (pyStrip_subset cur c (h1 ▸ hcm))
    by_cases h1 : cur.length + f.length > max
    · rw [if_pos h1] at hx
      by_cases h2 : f.length > max
      · rw [if_pos h2] at hx
        refine ih _ _ ?_ ?_ hftail x hx
        · intro y hy
          rcases List.mem_append.mp hy with h3 | h3
          · exact hchunks1 y h3
          · exact hwcs y (List.dropLast_subset _ h3)
        · rcases getLastD_mem_or (splitByWords f max) with h4 | h4
          · rw [h4]
            simp
          · exact hwcs _ h4
      · rw [if_neg h2] at hx
        exact ih _ f hchunks1 hfhead hftail x hx
    · rw [if_neg h1] at hx
      refine ih _ _ hc ?_ hftail x hx
      intro c hcm
      rcases List.mem_append.mp hcm with h3 | h3
      · exact hcur c h3
      · exact hfhead c h3

theorem splitSimple_filter (content : PyStr) (max : Nat) (pres : Bool)
    (hm : 0 < max) :
    (splitSimple content max pres).flatten.filter (fun c => !pyIsSpace c)
      = content.filter (fun c => !pyIsSpace c) := by
  cases pres with
  | false =>
    rw [splitSimple, if_neg (by simp)]
    exact splitByWords_filter content max hm
  | true =>
    rw [splitSimple, if_pos rfl, splitSimpleAux_filter max hm]
    simp [splitSentences_flatten]

theorem splitSimple_bound (content : PyStr) (max : Nat) (pres : Bool) :
    ∀ x ∈ splitSimple content max pres, x.length ≤ max := by
  cases pres with
  | false =>
    rw [splitSimple, if_neg (by simp)]
    exact splitByWords_bound content max
  | true =>
    rw [splitSimple, if_pos rfl]
    exact splitSimpleAux_bound max (splitSentences content) [] [] (by simp) (by simp)

theorem splitSimple_chars (content : PyStr) (max : Nat) (pres : Bool) :
    ∀ x ∈ splitSimple content max pres, ∀ c ∈ x, c ∈ content ∨ c = ' ' := by
  cases pres with
  | false =>
    rw [splitSimple, if_neg (by simp)]
    refine splitByWordsAux_chars max _ (Or.inr rfl) _ [] [] (by simp) (by simp) ?_
    intro w hw c hc
    exact Or.inl (pySplitWS_mem content w hw c hc).1
  | true =>
    rw [splitSimple, if_pos rfl]
    refine splitSimpleAux_chars max _ (Or.inr rfl) _ [] [] (by simp) (by simp) ?_
    intro f hf c hc
    exact Or.inl (splitSentences_mem content f hf c hc)

/-! ## Lemmas about the code-fence scanner -/

theorem splitAtFence_none (s : PyStr) (h : '\x60' ∉ s) : splitAtFence s = none := by
  induction s with
  | nil => rfl
  | cons c cs ih =>
    have hc : c ≠ '\x60' := fun hcc => h (hcc ▸ List.mem_cons_self c cs)
    have hcs : '\x60' ∉ cs := fun hm => h (List.mem_cons_of_mem c hm)
    simp only [splitAtFence]
    rw [if_neg, ih hcs]
    · rfl
    · intro hpre
      obtain ⟨t, ht⟩ := (isPrefixOf_true _ _).mp hpre
      have : c = '\x60' := by
        have := congrArg (fun l => l.head?) ht
        simpa [fenceStr] using this.symm
      exact hc this

theorem splitAtFence_clean (pre rest : PyStr) (h : '\x60' ∉ pre) :
    splitAtFence (pre ++ fenceStr ++ rest) = some (pre, rest) := by
  induction pre with
  | nil =>
    show splitAtFence ('\x60' :: '\x60' :: '\x60' :: rest) = some ([], rest)
    simp only [splitAtFence]
    rw [if_pos]
    · rfl
    · exact (isPrefixOf_true _ _).mpr ⟨rest, rfl⟩
  | cons c cs ih =>
    have hc : c ≠ '\x60' := fun hcc => h (hcc ▸ List.mem_cons_self c cs)
    have hcs : '\x60' ∉ cs := fun hm => h (List.mem_cons_of_mem c hm)
    show splitAtFence (c :: (cs ++ fenceStr ++ rest)) = some (c :: cs, rest)
    simp only [splitAtFence]
    rw [if_neg, ih hcs]
    · rfl
    · intro hpre
      obtain ⟨t, ht⟩ := (isPrefixOf_true _ _).mp hpre
      have : c = '\x60' := by
        have := congrArg (fun l => l.head?) ht
        simpa [fenceStr] using this.symm
      exact hc this

theorem splitCodePartsAux_nofence (post : PyStr) (h : '\x60' ∉ post) :
    ∀ fuel, splitCodePartsAux fuel post = [post] := by
  intro fuel
  cases fuel with
  | zero => rfl
  | succ n =>
    simp only [splitCodePartsAux, splitAtFence_none post h]

theorem splitCodeParts_clean (pre body post : PyStr) (hpre : '\x60' ∉ pre)
    (hbody : '\x60' ∉ body) (hpost : '\x60' ∉ post) :
    splitCodeParts (pre ++ (fenceStr ++ body ++ fenceStr) ++ post)
      = [pre, fenceStr ++ body ++ fenceStr, post] := by
  have hshape : pre ++ (fenceStr ++ body ++ fenceStr) ++ post
      = pre ++ fenceStr ++ (body ++ fenceStr ++ post) := by
    simp [List.append_assoc]
  have hlen : 0 < (pre ++ (fenceStr ++ body ++ fenceStr) ++ post).length := by
    simp [fenceStr]
  rw [splitCodeParts]
  obtain ⟨n, hn⟩ : ∃ n, (pre ++ (fenceStr ++ body ++ fenceStr) ++ post).length = n + 1 :=
    ⟨(pre ++ (fenceStr ++ body ++ fenceStr) ++ post).length - 1, by omega⟩
  rw [hn]
  simp only [splitCodePartsAux]
  rw [show pre ++ (fenceStr ++ body ++ fenceStr) ++ post
      = pre ++ fenceStr ++ (body ++ fenceStr ++ post) from hshape]
  rw [splitAtFence_clean pre _ hpre]
  simp only
  rw [show body ++ fenceStr ++ post = body ++ fenceStr ++ post from rfl,
    splitAtFence_clean body post hbody]
  simp only
  rw [splitCodePartsAux_nofence post hpost]

/-- The `is_code_block` test of `_split_with_code_blocks`:
`part.startswith("```") and part.endswith("```")`. -/
theorem isCB_block (body : PyStr) :
    (fenceStr.isPrefixOf (fenceStr ++ body ++ fenceStr)
      && fenceStr.isSuffixOf (fenceStr ++ body ++ fenceStr)) = true := by
  rw [(isPrefixOf_true _ _).mpr ⟨body ++ fenceStr, by simp⟩,
    List.isSuffixOf_iff_suffix.mpr ⟨fenceStr ++ body, by simp⟩]
  rfl

theorem isCB_clean (x : PyStr) (h : '\x60' ∉ x) :
    (fenceStr.isPrefixOf x && fenceStr.isSuffixOf x) = false := by
  have : fenceStr.isPrefixOf x = false := by
    rw [Bool.eq_false_iff]
    intro hb
    have hpre := (isPrefixOf_true _ _).mp hb
    exact h (hpre.subset (by simp [fenceStr]))
  rw [this]
  rfl

/-- Boolean test used to count which segments contain a given block. -/
def hasBlock (blk x : PyStr) : Bool := decide (List.IsInfix blk x)

theorem hasBlock_false_of_clean (blk x : PyStr) (hblk : '\x60' ∈ blk)
    (hx : '\x60' ∉ x) : hasBlock blk x = false := by
  rw [hasBlock, decide_eq_false_iff_not]
  intro hinf
  exact hx (hinf.subset hblk)

theorem btick_mem_block (body : PyStr) : '\x60' ∈ fenceStr ++ body ++ fenceStr := by
  simp [fenceStr]

theorem countP_single_block (blk : PyStr) (A C : List PyStr) (x : PyStr)
    (hA : ∀ y ∈ A, hasBlock blk y = false) (hx : hasBlock blk x = true)
    (hC : ∀ y ∈ C, hasBlock blk y = false) :
    ((A ++ [x] ++ C).countP (hasBlock blk)) = 1 := by
  have h1 : List.countP (hasBlock blk) A = 0 :=
    List.countP_eq_zero.mpr (fun a ha => by rw [hA a ha]; simp)
  have h2 : List.countP (hasBlock blk) C = 0 :=
    List.countP_eq_zero.mpr (fun a ha => by rw [hC a ha]; simp)
  rw [List.countP_append, List.countP_append, h1, h2]
  simp [List.countP_cons, hx]

theorem swcbAux_nil (chunks : List PyStr) (cur : PyStr) (max : Nat) :
    swcbAux chunks cur max [] = if cur = [] then chunks else chunks ++ [cur] := rfl

theorem swcbAux_cons_text (chunks : List PyStr) (cur : PyStr) (max : Nat)
    (p : PyStr) (ps : List PyStr)
    (hp : (fenceStr.isPrefixOf p && fenceStr.isSuffixOf p) = false) :
    swcbAux chunks cur max (p :: ps)
      = if cur.length + p.length > max then
          swcbAux ((if cur = [] then chunks else chunks ++ [cur])
              ++ (splitSimple p max true).dropLast)
            ((splitSimple p max true).getLastD []) max ps
        else swcbAux chunks (cur ++ p) max ps := by
  simp only [swcbAux]
  rw [if_neg (by rw [hp]; simp)]

theorem swcbAux_cons_code_fits (chunks : List PyStr) (cur : PyStr) (max : Nat)
    (p : PyStr) (ps : List PyStr)
    (hp : (fenceStr.isPrefixOf p && fenceStr.isSuffixOf p) = true)
    (hlen : ¬ p.length > max) :
    swcbAux chunks cur max (p :: ps)
      = if cur.length + p.length > max then
          swcbAux (if cur = [] then chunks else chunks ++ [cur]) p max ps
        else swcbAux chunks (cur ++ p) max ps := by
  simp only [swcbAux]
  rw [if_pos hp, if_neg hlen]

theorem swcb_finish_count (blk : PyStr) (hblk : '\x60' ∈ blk) (max : Nat)
    (ch2 : List PyStr) (cur2 post : PyStr)
    (hch2 : ∀ y ∈ ch2, ∀ c ∈ y, c ≠ '\x60')
    (hinf : List.IsInfix blk cur2) (hne : cur2 ≠ [])
    (hpost : '\x60' ∉ post) :
    (swcbAux ch2 cur2 max [post]).countP (hasBlock blk) = 1 := by
  have htcs : ∀ y ∈ splitSimple post max true, ∀ c ∈ y, c ≠ '\x60' := by
    intro y hy c hc' he
    rcases splitSimple_chars post max true y hy c hc' with h | h
    · exact hpost (he ▸ h)
    · rw [h] at he
      exact absurd he (by decide)
  have hx : hasBlock blk cur2 = true := decide_eq_true hinf
  rw [swcbAux_cons_text _ _ _ _ _ (isCB_clean post hpost)]
  by_cases hc : cur2.length + post.length > max
  · rw [if_pos hc, if_neg hne, swcbAux_nil]
    by_cases hlast : (splitSimple post max true).getLastD [] = []
    · rw [if_pos hlast]
      refine countP_single_block blk ch2 _ cur2
        (fun y hy => hasBlock_false_of_clean blk y hblk (fun hm => hch2 y hy _ hm rfl))
        hx ?_
      intro y hy
      refine hasBlock_false_of_clean blk y hblk (fun hm => ?_)
      exact htcs y (List.dropLast_subset _ hy) _ hm rfl
    · rw [if_neg hlast, List.append_assoc (ch2 ++ [cur2])]
      refine countP_single_block blk ch2 _ cur2
        (fun y hy => hasBlock_false_of_clean blk y hblk (fun hm => hch2 y hy _ hm rfl))
        hx ?_
      intro y hy
      rcases List.mem_append.mp hy with h | h
      · exact hasBlock_false_of_clean blk y hblk
          (fun hm => htcs y (List.dropLast_subset _ h) _ hm rfl)
      · have h' : y = (splitSimple post max true).getLastD [] := List.mem_singleton.mp h
        subst h'
        rcases getLastD_mem_or (splitSimple post max true) with h4 | h4
        · exact absurd h4 hlast
        · exact hasBlock_false_of_clean blk _ hblk (fun hm => htcs _ h4 _ hm rfl)
  · rw [if_neg hc, swcbAux_nil, if_neg (by simp [hne])]
    have : hasBlock blk (cur2 ++ post) = true := by
      rw [hasBlock, decide_eq_true_eq]
      obtain ⟨s, t, hst⟩ := hinf
      exact ⟨s, t ++ post, by rw [← hst]; simp⟩
    simpa using countP_single_block blk ch2 [] (cur2 ++ post)
      (fun y hy => hasBlock_false_of_clean blk y hblk (fun hm => hch2 y hy _ hm rfl))
      this (by simp)

theorem swcb_B_post (body post : PyStr) (max : Nat)
    (hpost : '\x60' ∉ post)
    (hB : (fenceStr ++ body ++ fenceStr).length ≤ max) :
    ∀ (ch1 : List PyStr) (cur1 : PyStr),
    (∀ y ∈ ch1, ∀ c ∈ y, c ≠ '\x60') → (∀ c ∈ cur1, c ≠ '\x60') →
    (swcbAux ch1 cur1 max ((fenceStr ++ body ++ fenceStr) :: [post])).countP
      (hasBlock (fenceStr ++ body ++ fenceStr)) = 1 := by
  intro ch1 cur1 hch1 hcur1
  have hBne : (fenceStr ++ body ++ fenceStr) ≠ [] := by simp [fenceStr]
  rw [swcbAux_cons_code_fits _ _ _ _ _ (isCB_block body) (by omega)]
  by_cases h2 : cur1.length + (fenceStr ++ body ++ fenceStr).length > max
  · rw [if_pos h2]
    by_cases hc1 : cur1 = []
    · rw [if_pos hc1]
      exact swcb_finish_count _ (btick_mem_block body) max ch1 _ post hch1
        (List.infix_refl _) hBne hpost
    · rw [if_neg hc1]
      refine swcb_finish_count _ (btick_mem_block body) max _ _ post ?_
        (List.infix_refl _) hBne hpost
      intro y hy
      rcases List.mem_append.mp hy with h | h
      · exact hch1 y h
      · have h' : y = cur1 := List.mem_singleton.mp h
        exact h' ▸ hcur1
  · rw [if_neg h2]
    refine swcb_finish_count _ (btick_mem_block body) max ch1 _ post hch1
      ⟨cur1, [], by simp⟩ (fun he => hBne (List.append_eq_nil.mp he).2) hpost

/-- Core of the block-preservation property: a complete fenced block that
fits the limit ends up intact in exactly one returned segment. -/
theorem splitMessage_block_intact (pre body post : PyStr) (max : Nat)
    (hpre : '\x60' ∉ pre) (hbody : '\x60' ∉ body) (hpost : '\x60' ∉ post)
    (hB : (fenceStr ++ body ++ fenceStr).length < max) :
    (splitMessageD (pre ++ (fenceStr ++ body ++ fenceStr) ++ post) max).countP
      (hasBlock (fenceStr ++ body ++ fenceStr)) = 1 := by
  by_cases hlen : (pre ++ (fenceStr ++ body ++ fenceStr) ++ post).length ≤ max
  · rw [splitMessageD, splitMessage, if_pos hlen]
    have hbl : hasBlock (fenceStr ++ body ++ fenceStr)
        (pre ++ (fenceStr ++ body ++ fenceStr) ++ post) = true := by
      rw [hasBlock, decide_eq_true_eq]
      exact ⟨pre, post, by simp⟩
    rw [List.countP_cons, List.countP_nil, hbl]
    rfl
  · have hcf : containsFence (pre ++ (fenceStr ++ body ++ fenceStr) ++ post) = true := by
      rw [containsFence,
        show pre ++ (fenceStr ++ body ++ fenceStr) ++ post
          = pre ++ fenceStr ++ (body ++ fenceStr ++ post) from by
            simp [List.append_assoc],
        splitAtFence_clean pre _ hpre]
      rfl
    rw [splitMessageD, splitMessage, if_neg hlen, if_pos (by rw [hcf]; rfl),
      splitWithCodeBlocks, splitCodeParts_clean pre body post hpre hbody hpost]
    rw [show ([pre, fenceStr ++ body ++ fenceStr, post] : List PyStr)
        = pre :: ((fenceStr ++ body ++ fenceStr) :: [post]) from rfl]
    rw [swcbAux_cons_text _ _ _ _ _ (isCB_clean pre hpre)]
    have hpchars : ∀ y ∈ splitSimple pre max true, ∀ c ∈ y, c ≠ '\x60' := by
      intro y hy c hc' he
      rcases splitSimple_chars pre max true y hy c hc' with h | h
      · exact hpre (he ▸ h)
      · rw [h] at he
        exact absurd he (by decide)
    by_cases h1 : ([] : PyStr).length + pre.length > max
    · rw [if_pos h1, if_pos rfl]
      refine swcb_B_post body post max hpost (by omega) _ _ ?_ ?_
      · intro y hy
        rw [List.nil_append] at hy
        exact hpchars y (List.dropLast_subset _ hy)
      · rcases getLastD_mem_or (splitSimple pre max true) with h4 | h4
        · rw [h4]
          simp
        · exact hpchars _ h4
    · rw [if_neg h1]
      refine swcb_B_post body post max hpost (by omega) _ _ (by simp) ?_
      rw [List.nil_append]
      intro c hc he
      exact hpre (he ▸ hc)

theorem splitMessageD_short (content : PyStr) (max : Nat)
    (h : content.length ≤ max) : splitMessageD content max = [content] := by
  simp [splitMessageD, splitMessage, h]

theorem splitMessageD_nofence_bound (content : PyStr) (max : Nat)
    (hf : containsFence content = false) :
    ∀ x ∈ splitMessageD content max, x.length ≤ max := by
  by_cases h : content.length ≤ max
  · rw [splitMessageD_short content max h]
    intro x hx
    rw [List.mem_singleton.mp hx]
    exact h
  · rw [splitMessageD, splitMessage, if_neg h, if_neg (by simp [hf])]
    exact splitSimple_bound content max true

theorem splitMessageD_nofence_filter (content : PyStr) (max : Nat)
    (hm : 0 < max) (hf : containsFence content = false) :
    (splitMessageD content max).flatten.filter (fun c => !pyIsSpace c)
      = content.filter (fun c => !pyIsSpace c) := by
  by_cases h : content.length ≤ max
  · rw [splitMessageD_short content max h]
    simp
  · rw [splitMessageD, splitMessage, if_neg h, if_neg (by simp [hf])]
    exact splitSimple_filter content max true hm

/-! ## Data model: agent records (`src/database/models.py`, `AgentTable`)

Identifiers (`message.author.id`, whitelist entries, …) are modelled as
naturals: the Python code compares their decimal-string forms
(`str(message.author.id) == bot_user_id`, `str(message.guild.id) not in
agent.guild_whitelist`), and `str` is injective on integers, so numeric
equality is faithful.  `agent_config` is modelled by the only key the core
reads structurally, `provider` (plus the numeric fields carried separately
by the LLM-agent state below). -/

structure AgentRecord where
  id : Nat
  name : String
  discordToken : String
  discordEnabled : Bool
  respondToDm : Bool
  guildWhitelist : List Nat
  channelWhitelist : List Nat
  agentType : String
  provider : String
deriving DecidableEq, Repr

/-! ## Inbound routing (`message_handler.should_respond`)

`discord.DMChannel` becomes `dm`; `discord.TextChannel` and `discord.Thread`
are handled identically by the code and become `guildText` (a message in a
guild text channel or thread always carries its guild, so the guild id is a
field); every other channel kind becomes `other`.  `replyResolvedAuthor`
models `message.reference.resolved` being a `discord.Message` authored by
that user (`none` covers no reference, an unresolved reference, and a
deleted referenced message). -/

inductive Channel where
  | dm : Channel
  | guildText (guildId : Nat) (channelId : Nat) : Channel
  | other : Channel
deriving DecidableEq, Repr

structure DiscordMessage where
  authorId : Nat
  channel : Channel
  mentions : List Nat
  replyResolvedAuthor : Option Nat
deriving DecidableEq, Repr

/-- Embedding of `should_respond(message, bot_user_id, agent)`. -/
def should_respond (message : DiscordMessage) (botUserId : Nat)
    (agent : AgentRecord) : Bool :=
  if message.authorId = botUserId then false
  else
    match message.channel with
    | Channel.dm => agent.respondToDm
    | Channel.guildText guildId channelId =>
      if agent.guildWhitelist ≠ [] ∧ guildId ∉ agent.guildWhitelist then false
      else if agent.channelWhitelist ≠ [] ∧ channelId ∉ agent.channelWhitelist then
        false
      else if message.mentions ≠ [] ∧ botUserId ∈ message.mentions then true
      else if message.replyResolvedAuthor = some botUserId then true
      else false
    | Channel.other => false

/-- The routing decision table exactly as the specification words it
(§4.4 of the spec); compared against `should_respond` in claim C4. -/
def respondSpec (message : DiscordMessage) (botUserId : Nat)
    (agent : AgentRecord) : Bool :=
  if message.authorId = botUserId then false
  else
    match message.channel with
    | Channel.dm => agent.respondToDm
    | Channel.guildText guildId channelId =>
      (agent.guildWhitelist = [] ∨ guildId ∈ agent.guildWhitelist)
        ∧ (agent.channelWhitelist = [] ∨ channelId ∈ agent.channelWhitelist)
        ∧ (botUserId ∈ message.mentions
            ∨ message.replyResolvedAuthor = some botUserId)
    | Channel.other => false

/-! ## LLM conversational agent (`src/agents/llm_agent.py`)

The provider HTTP call is external (spec §6); one `execute` step takes the
outcome of that call as a parameter `gen` (`Except.error e` models a raised
exception with text `e`).  `conversations` is the per-`chat_id` history
dict; a missing key reads as `[]`, matching the `if chat_id not in
self.conversations` initialisation. -/

structure ChatTurn where
  role : String
  content : String
deriving DecidableEq, Repr

structure LLMAgentState where
  provider : String
  maxHistory : Nat
  conversations : String → List ChatTurn

/-- Pointwise update of the conversation dict. -/
def updateConv (f : String → List ChatTurn) (chatId : String)
    (v : List ChatTurn) : String → List ChatTurn :=
  fun c => if c = chatId then v else f c

/-- Embedding of the trim step
`self.conversations[chat_id][-(self.max_history * 2):]` guarded by
`len(...) > self.max_history * 2`.  Note the Python quirk: for
`max_history = 0` the slice `[-0:]` is the whole list, so the "trim" keeps
everything. -/
def llmTrim (maxHistory : Nat) (conv : List ChatTurn) : List ChatTurn :=
  if conv.length > maxHistory * 2 then
    if maxHistory * 2 = 0 then conv
    else conv.drop (conv.length - maxHistory * 2)
  else conv

/-- Embedding of `LLMAgent.execute(content, chat_id, use_history)`.  Returns
the reply string and the successor state. -/
def llmExecute (st : LLMAgentState) (content chatId : String)
    (useHistory : Bool) (gen : Except String String) :
    String × LLMAgentState :=
  if !useHistory then
    -- `_generate_stateless`: no conversation state is read or written
    if st.provider = "openai" ∨ st.provider = "anthropic" then
      match gen with
      | Except.ok t => (t, st)
      | Except.error e => ("Sorry, I encountered an error: " ++ e, st)
    else ("Error: Unsupported LLM provider", st)
  else
    let conv0 := st.conversations chatId
    let conv1 := conv0 ++ [⟨"user", content⟩]
    let conv2 := llmTrim st.maxHistory conv1
    if st.provider = "openai" ∨ st.provider = "anthropic" then
      match gen with
      | Except.ok t =>
        (t, ⟨st.provider, st.maxHistory,
              updateConv st.conversations chatId (conv2 ++ [⟨"assistant", t⟩])⟩)
      | Except.error e =>
        ("Sorry, I encountered an error: " ++ e,
          ⟨st.provider, st.maxHistory, updateConv st.conversations chatId conv2⟩)
    else
      ("Error: Unsupported LLM provider",
        ⟨st.provider, st.maxHistory,
          updateConv st.conversations chatId
            (conv2 ++ [⟨"assistant", "Error: Unsupported LLM provider"⟩])⟩)

/-- `k` successful stateful `execute` calls on one conversation identity
(inputs and provider replies indexed by call number). -/
def llmIterate (chatId : String) (inputs replies : Nat → String) :
    Nat → LLMAgentState → LLMAgentState
  | 0, st => st
  | k + 1, st =>
    llmIterate chatId inputs replies k
      (llmExecute st (inputs k) chatId true (Except.ok (replies k))).2

/-- A fresh LLM agent state: `self.conversations = {}`. -/
def llmInit (provider : String) (maxHistory : Nat) : LLMAgentState :=
  ⟨provider, maxHistory, fun _ => []⟩

/-! ## Connection pool and scheduler (`bot_pool.py`, `scheduler.py`)

The asyncio lock serialises pool mutations; the embedding is the resulting
sequential semantics.  `instanceId` models Python object identity of a
`BotPoolItem` (`nextInstanceId` is the allocation counter);
`maxConcurrentBots` carries `settings.max_concurrent_bots`.

`create_agent` raises `ValueError` for an unknown `agent_type`, and
`LLMAgent._init_client` raises for an unsupported `provider`; library
imports are treated as available (an environment property).  Crucially,
`BotPoolItem.start` launches `self.bot.start(token)` with
`asyncio.create_task` and returns without awaiting it, so no step of
`start` ever inspects the Discord token: a login failure (invalid
credential) happens later inside the detached task.  The guard
`if agent.id is None` in `init_new_bot` is unreachable for store-loaded
records (the primary key is always populated) and `id` is therefore a plain
natural. -/

def createAgentOk (r : AgentRecord) : Bool :=
  r.agentType = "echo"
    || (r.agentType = "llm" && (r.provider = "openai" || r.provider = "anthropic"))

structure BotPoolItem where
  agent : AgentRecord
  running : Bool
  instanceId : Nat
deriving DecidableEq, Repr

/-- Embedding of `BotPoolItem.start`: no-op when already running; creating
the agent instance can raise (propagated, `_running` left `False`); the
gateway connection itself is fire-and-forget, so the token is never
examined. -/
def itemStart (item : BotPoolItem) : Except Unit BotPoolItem :=
  if item.running then Except.ok item
  else if createAgentOk item.agent then Except.ok { item with running := true }
  else Except.error ()

/-- Embedding of `BotPoolItem.stop`: no-op when not running; all errors
while stopping are caught and logged. -/
def itemStop (item : BotPoolItem) : BotPoolItem :=
  if item.running then { item with running := false } else item

structure BotPool where
  bots : List (Nat × BotPoolItem)
  nextInstanceId : Nat
  maxConcurrentBots : Nat
deriving DecidableEq, Repr

def poolKeys (p : BotPool) : List Nat := p.bots.map Prod.fst

/-- Embedding of `BotPool.init_new_bot(agent)`.  The boolean is `true` when
the call raised (a `BotPoolItem.start` failure propagates to the caller);
rejections for a duplicate identity or a full pool return normally.  A new
`BotPoolItem` object is allocated before `start` is attempted. -/
def init_new_bot (p : BotPool) (agent : AgentRecord) : BotPool × Bool :=
  if agent.id ∈ poolKeys p then (p, false)
  else if p.bots.length ≥ p.maxConcurrentBots then (p, false)
  else
    match itemStart ⟨agent, false, p.nextInstanceId⟩ with
    | Except.ok item =>
      (⟨p.bots ++ [(agent.id, item)], p.nextInstanceId + 1, p.maxConcurrentBots⟩,
        false)
    | Except.error _ =>
      (⟨p.bots, p.nextInstanceId + 1, p.maxConcurrentBots⟩, true)

/-- Embedding of `BotPool.stop_bot(agent_id)`: stop the item if present and
remove its entry; a missing identity is a logged no-op.  The stopped item is
dropped from the mapping either way, so the removal is a key filter. -/
def stop_bot (p : BotPool) (agentId : Nat) : BotPool :=
  ⟨p.bots.filter (fun e => e.1 ≠ agentId), p.nextInstanceId, p.maxConcurrentBots⟩

/-- Phase 1 of `AgentScheduler._sync_agents`: start a bot for every enabled
record whose identity is not yet pooled.  A raised start aborts the whole
cycle (the loop body has no `try` around the pool calls), which the boolean
reports. -/
def runStarts (p : BotPool) : List AgentRecord → BotPool × Bool
  | [] => (p, false)
  | a :: rest =>
    let r := init_new_bot p a
    if r.2 then (r.1, true) else runStarts r.1 rest

/-- Phase 3 of `AgentScheduler._sync_agents`: for identities both enabled
and pooled, compare tokens and restart (`stop_bot` then `init_new_bot`) on a
change.  Like phase 1, a raised start aborts the cycle. -/
def runRestarts (p : BotPool) : List AgentRecord → BotPool × Bool
  | [] => (p, false)
  | a :: rest =>
    match p.bots.find? (fun e => e.1 = a.id) with
    | none => runRestarts p rest
    | some e =>
      if e.2.agent.discordToken ≠ a.discordToken then
        let r := init_new_bot (stop_bot p a.id) a
        if r.2 then (r.1, true) else runRestarts r.1 rest
      else runRestarts p rest

/-- Embedding of one `AgentScheduler._sync_agents` cycle over the record
store contents `records` (`repository.get_all_enabled` filters on the
enabled flag).  Python iterates the id sets in unspecified set order; the
embedding iterates in record-list and pool order, which the claims'
set-level statements do not distinguish.  The boolean is `true` when the
cycle was aborted by a propagated exception. -/
def syncAgents (records : List AgentRecord) (p : BotPool) : BotPool × Bool :=
  let enabled := records.filter (fun r => r.discordEnabled)
  let enabledIds := enabled.map (fun r => r.id)
  let currentIds := poolKeys p
  let toStart := enabled.filter (fun a => a.id ∉ currentIds)
  let r1 := runStarts p toStart
  if r1.2 then (r1.1, true)
  else
    let toStop := currentIds.filter (fun i => i ∉ enabledIds)
    let p2 := toStop.foldl stop_bot r1.1
    let keep := enabled.filter (fun a => a.id ∈ currentIds)
    runRestarts p2 keep

/-! ## Lemmas about the pool and the reconciliation cycle -/

theorem length_filter_lt {α : Type} (p : α → Bool) (l : List α) (a : α)
    (ha : a ∈ l) (hpa : p a = false) : (l.filter p).length < l.length := by
  induction l with
  | nil => cases ha
  | cons b bs ih =>
    by_cases hb : p b = true
    · rw [List.filter_cons_of_pos hb]
      have hab : a ∈ bs := by
        rcases List.mem_cons.mp ha with h | h
        · rw [h] at hpa
          rw [hpa] at hb
          cases hb
        · exact h
      simpa using ih hab
    · rw [List.filter_cons_of_neg hb]
      simp only [List.length_cons]
      exact Nat.lt_succ_of_le (List.length_filter_le p bs)

theorem poolKeys_append_one (p : BotPool) (i : Nat) (it : BotPoolItem)
    (n c : Nat) :
    poolKeys ⟨p.bots ++ [(i, it)], n, c⟩ = poolKeys p ++ [i] := by
  simp [poolKeys]

/-- Successful start: the new entry is appended and the rejection/raise
conditions are absent. -/
theorem init_new_bot_ok (p : BotPool) (a : AgentRecord)
    (h1 : a.id ∉ poolKeys p) (h2 : p.bots.length < p.maxConcurrentBots)
    (h3 : createAgentOk a = true) :
    init_new_bot p a
      = (⟨p.bots ++ [(a.id, ⟨a, true, p.nextInstanceId⟩)],
          p.nextInstanceId + 1, p.maxConcurrentBots⟩, false) := by
  rw [init_new_bot, if_neg h1, if_neg (by omega)]
  rw [itemStart, if_neg (by simp), if_pos h3]

theorem init_new_bot_dup (p : BotPool) (a : AgentRecord)
    (h : a.id ∈ poolKeys p) : init_new_bot p a = (p, false) := by
  rw [init_new_bot, if_pos h]

theorem init_new_bot_full (p : BotPool) (a : AgentRecord)
    (h1 : a.id ∉ poolKeys p) (h2 : p.bots.length ≥ p.maxConcurrentBots) :
    init_new_bot p a = (p, false) := by
  rw [init_new_bot, if_neg h1, if_pos h2]

theorem runStarts_ok (l : List AgentRecord) : ∀ p : BotPool,
    (∀ a ∈ l, createAgentOk a = true) →
    (∀ a ∈ l, a.id ∉ poolKeys p) →
    (l.map (fun a => a.id)).Nodup →
    p.bots.length + l.length ≤ p.maxConcurrentBots →
    (runStarts p l).2 = false
      ∧ poolKeys (runStarts p l).1 = poolKeys p ++ l.map (fun a => a.id)
      ∧ (runStarts p l).1.bots.length = p.bots.length + l.length
      ∧ (runStarts p l).1.maxConcurrentBots = p.maxConcurrentBots := by
  induction l with
  | nil =>
    intro p _ _ _ _
    exact ⟨rfl, by simp [runStarts], by simp [runStarts], rfl⟩
  | cons a rest ih =>
    intro p hok hfresh hnd hcap
    have hinit := init_new_bot_ok p a (hfresh a (by simp))
      (by simp at hcap; omega) (hok a (by simp))
    have hkeys1 := poolKeys_append_one p a.id ⟨a, true, p.nextInstanceId⟩
      (p.nextInstanceId + 1) p.maxConcurrentBots
    simp only [runStarts, hinit, if_neg (Bool.false_ne_true)]
    have hnd2 : (∀ x ∈ rest, ¬x.id = a.id) ∧ (rest.map (fun a => a.id)).Nodup := by
      simpa using hnd
    have hnd' := hnd2.2
    have hne : ∀ b ∈ rest, b.id ≠ a.id := hnd2.1
    obtain ⟨r1, r2, r3, r4⟩ := ih _ (fun b hb => hok b (by simp [hb]))
      (by
        intro b hb
        rw [hkeys1]
        intro hmem
        rcases List.mem_append.mp hmem with h | h
        · exact hfresh b (by simp [hb]) h
        · exact hne b hb (List.mem_singleton.mp h))
      hnd'
      (by simp at hcap ⊢; omega)
    refine ⟨r1, ?_, ?_, ?_⟩
    · rw [r2, hkeys1]
      simp
    · rw [r3]
      simp
      omega
    · rw [r4]

theorem foldl_stop_bots (l : List Nat) : ∀ p : BotPool,
    l.foldl stop_bot p
      = ⟨p.bots.filter (fun e => decide (e.1 ∉ l)), p.nextInstanceId,
          p.maxConcurrentBots⟩ := by
  induction l with
  | nil =>
    intro p
    cases p with
    | mk bots nid cap => simp [List.foldl]
  | cons i rest ih =>
    intro p
    rw [List.foldl_cons, ih]
    rw [stop_bot]
    simp only [List.filter_filter]
    congr 1
    apply List.filter_congr
    intro e _
    by_cases h1 : e.1 = i <;> by_cases h2 : e.1 ∈ rest <;> simp [h1, h2]

theorem map_fst_filter_key (pred : Nat → Bool) (bots : List (Nat × BotPoolItem)) :
    (bots.filter (fun e => pred e.1)).map Prod.fst
      = (bots.map Prod.fst).filter pred := by
  induction bots with
  | nil => rfl
  | cons e es ih =>
    by_cases h : pred e.1 = true <;> simp [List.filter_cons, h, ih]

theorem poolKeys_foldl_stop (l : List Nat) (p : BotPool) :
    poolKeys (l.foldl stop_bot p)
      = (poolKeys p).filter (fun i => decide (i ∉ l)) := by
  rw [foldl_stop_bots l p]
  exact map_fst_filter_key (fun i => decide (i ∉ l)) p.bots

theorem runRestarts_cons_none (p : BotPool) (a : AgentRecord)
    (rest : List AgentRecord)
    (hf : p.bots.find? (fun e => e.1 = a.id) = none) :
    runRestarts p (a :: rest) = runRestarts p rest := by
  simp only [runRestarts, hf]

theorem runRestarts_cons_some (p : BotPool) (a : AgentRecord)
    (rest : List AgentRecord) (e : Nat × BotPoolItem)
    (hf : p.bots.find? (fun x => x.1 = a.id) = some e) :
    runRestarts p (a :: rest)
      = if e.2.agent.discordToken ≠ a.discordToken then
          (if (init_new_bot (stop_bot p a.id) a).2 then
            ((init_new_bot (stop_bot p a.id) a).1, true)
          else runRestarts (init_new_bot (stop_bot p a.id) a).1 rest)
        else runRestarts p rest := by
  simp only [runRestarts, hf]

theorem runRestarts_ok (l : List AgentRecord) : ∀ p : BotPool,
    (∀ a ∈ l, createAgentOk a = true) →
    (poolKeys p).Nodup →
    p.bots.length ≤ p.maxConcurrentBots →
    (runRestarts p l).2 = false
      ∧ (∀ i, i ∈ poolKeys (runRestarts p l).1 ↔ i ∈ poolKeys p)
      ∧ (runRestarts p l).1.bots.length ≤ p.bots.length
      ∧ (runRestarts p l).1.maxConcurrentBots = p.maxConcurrentBots
      ∧ (poolKeys (runRestarts p l).1).Nodup := by
  induction l with
  | nil =>
    intro p _ hnd hcap
    exact ⟨rfl, fun i => Iff.rfl, le_refl _, rfl, hnd⟩
  | cons a rest ih =>
    intro p hok hnd hcap
    cases hf : p.bots.find? (fun e => e.1 = a.id) with
    | none =>
      rw [runRestarts_cons_none p a rest hf]
      exact ih p (fun b hb => hok b (by simp [hb])) hnd hcap
    | some e =>
      rw [runRestarts_cons_some p a rest e hf]
      have hmem : e ∈ p.bots := List.mem_of_find?_eq_some hf
      have hkey : e.1 = a.id := by simpa using List.find?_some hf
      have hidmem : a.id ∈ poolKeys p :=
        hkey ▸ List.mem_map_of_mem Prod.fst hmem
      by_cases htok : e.2.agent.discordToken ≠ a.discordToken
      · rw [if_pos htok]
        have hstop : stop_bot p a.id
            = ⟨p.bots.filter (fun e => e.1 ≠ a.id), p.nextInstanceId,
                p.maxConcurrentBots⟩ := rfl
        have hlenlt : (p.bots.filter (fun e => e.1 ≠ a.id)).length < p.bots.length := by
          refine length_filter_lt _ p.bots e hmem ?_
          simp [hkey]
        have hfresh : a.id ∉ poolKeys (stop_bot p a.id) := by
          rw [hstop]
          intro hmm
          simp only [poolKeys, List.mem_map] at hmm
          obtain ⟨x, hx1, hx2⟩ := hmm
          have := List.of_mem_filter hx1
          rw [hx2] at this
          simp at this
        have hinit := init_new_bot_ok (stop_bot p a.id) a hfresh
          (by rw [hstop]; simpa using Nat.lt_of_lt_of_le hlenlt hcap)
          (hok a (by simp))
        have h2f : (init_new_bot (stop_bot p a.id) a).2 = false := by rw [hinit]
        rw [h2f, if_neg (Bool.false_ne_true)]
        have hkstop : poolKeys (stop_bot p a.id)
            = (poolKeys p).filter (fun i => i ≠ a.id) := by
          rw [hstop]
          exact map_fst_filter_key (fun i => decide (i ≠ a.id)) p.bots
        have hkeys2 : poolKeys (init_new_bot (stop_bot p a.id) a).1
            = (poolKeys p).filter (fun i => i ≠ a.id) ++ [a.id] :=
          calc poolKeys (init_new_bot (stop_bot p a.id) a).1
              = poolKeys ⟨(stop_bot p a.id).bots
                  ++ [(a.id, ⟨a, true, (stop_bot p a.id).nextInstanceId⟩)],
                  (stop_bot p a.id).nextInstanceId + 1,
                  (stop_bot p a.id).maxConcurrentBots⟩ := by rw [hinit]
            _ = poolKeys (stop_bot p a.id) ++ [a.id] :=
                poolKeys_append_one (stop_bot p a.id) a.id _ _ _
            _ = (poolKeys p).filter (fun i => i ≠ a.id) ++ [a.id] := by rw [hkstop]
        have hnd2 : (poolKeys (init_new_bot (stop_bot p a.id) a).1).Nodup := by
          rw [hkeys2]
          refine List.Nodup.append (hnd.filter _) (List.nodup_singleton _) ?_
        -- disjointness
          intro x hx1 hx2
          have := List.of_mem_filter hx1
          rw [List.mem_singleton.mp hx2] at this
          simp at this
        have hlen2 : (init_new_bot (stop_bot p a.id) a).1.bots.length ≤ p.bots.length := by
          rw [hinit]
          simp only [List.length_append, List.length_cons, List.length_nil]
          rw [hstop]
          simp only
          omega
        have hcap2 : (init_new_bot (stop_bot p a.id) a).1.maxConcurrentBots
            = p.maxConcurrentBots := by
          rw [hinit, hstop]
        obtain ⟨r1, r2, r3, r4, r5⟩ := ih (init_new_bot (stop_bot p a.id) a).1
          (fun b hb => hok b (by simp [hb])) hnd2 (by rw [hcap2]; omega)
        refine ⟨r1, ?_, by omega, by rw [r4, hcap2], r5⟩
        intro i
        rw [r2 i, hkeys2]
        constructor
        · intro hi
          rcases List.mem_append.mp hi with h | h
          · exact List.mem_of_mem_filter h
          · rw [List.mem_singleton.mp h]
            exact hidmem
        · intro hi
          by_cases hia : i = a.id
          · exact List.mem_append.mpr (Or.inr (by simp [hia]))
          · exact List.mem_append.mpr (Or.inl (List.mem_filter.mpr
              ⟨hi, by simp [hia]⟩))
      · rw [if_neg htok]
        exact ih p (fun b hb => hok b (by simp [hb])) hnd hcap

/-! ## Lemmas about the LLM agent's conversation memory -/

theorem updateConv_self (f : String → List ChatTurn) (chatId : String)
    (v : List ChatTurn) : updateConv f chatId v chatId = v := by
  simp [updateConv]

theorem updateConv_other (f : String → List ChatTurn) (chatId c : String)
    (v : List ChatTurn) (h : c ≠ chatId) : updateConv f chatId v c = f c := by
  simp [updateConv, h]

theorem llmTrim_length (N : Nat) (conv : List ChatTurn) :
    (llmTrim N conv).length
      = if N * 2 = 0 then conv.length else min conv.length (N * 2) := by
  rw [llmTrim]
  split_ifs with h1 h2 h3 <;> simp_all [List.length_drop] <;> omega

/-- One successful stateful call: the stored history is the trimmed
user-extended history plus the assistant turn. -/
theorem llmExecute_ok_conv (st : LLMAgentState) (content chatId : String)
    (t : String) (hp : st.provider = "openai" ∨ st.provider = "anthropic") :
    (llmExecute st content chatId true (Except.ok t)).2.conversations chatId
      = llmTrim st.maxHistory (st.conversations chatId ++ [⟨"user", content⟩])
          ++ [⟨"assistant", t⟩] := by
  rw [llmExecute]
  simp only [Bool.not_true, Bool.false_eq_true, if_false, if_pos hp]
  exact updateConv_self _ _ _

/-- One failed stateful call: the reply is the apology string, the user turn
has been appended (and the history trimmed), and no assistant turn is
stored. -/
theorem llmExecute_err (st : LLMAgentState) (content chatId : String)
    (e : String) (hp : st.provider = "openai" ∨ st.provider = "anthropic") :
    llmExecute st content chatId true (Except.error e)
      = ("Sorry, I encountered an error: " ++ e,
          ⟨st.provider, st.maxHistory,
            updateConv st.conversations chatId
              (llmTrim st.maxHistory
                (st.conversations chatId ++ [⟨"user", content⟩]))⟩) := by
  rw [llmExecute]
  simp only [Bool.not_true, Bool.false_eq_true, if_false, if_pos hp]

theorem llmExecute_fields (st : LLMAgentState) (content chatId : String)
    (useHistory : Bool) (gen : Except String String) :
    (llmExecute st content chatId useHistory gen).2.provider = st.provider
      ∧ (llmExecute st content chatId useHistory gen).2.maxHistory
          = st.maxHistory := by
  rw [llmExecute.eq_def]
  split_ifs <;> cases gen <;> simp

/-- Any single `execute` call keeps every stored conversation within
`2 N + 1` turns, provided the configured depth `N` is at least one. -/
theorem llmExecute_invariant (st : LLMAgentState) (content chatId : String)
    (useHistory : Bool) (gen : Except String String)
    (hN : 1 ≤ st.maxHistory)
    (hinv : ∀ c, (st.conversations c).length ≤ 2 * st.maxHistory + 1) :
    ∀ c, ((llmExecute st content chatId useHistory gen).2.conversations c).length
      ≤ 2 * st.maxHistory + 1 := by
  intro c
  have htrim : (llmTrim st.maxHistory
      (st.conversations chatId ++ [⟨"user", content⟩])).length
        ≤ 2 * st.maxHistory := by
    rw [llmTrim_length]
    have := hinv chatId
    rw [if_neg (by omega)]
    rw [List.length_append]
    simp only [List.length_cons, List.length_nil]
    omega
  rw [llmExecute.eq_def]
  split_ifs with h1 h2 h3 <;> cases gen <;>
    simp only [] <;>
    first
      | exact hinv c
      | (by_cases hc : c = chatId
         · subst hc
           simp only [updateConv_self, List.length_append, List.length_cons,
             List.length_nil]
           omega
         · rw [updateConv_other _ _ _ _ hc]
           exact hinv c)

theorem llmExecute_ok_len (st : LLMAgentState) (content chatId t : String)
    (hp : st.provider = "openai" ∨ st.provider = "anthropic")
    (hN : 1 ≤ st.maxHistory) :
    ((llmExecute st content chatId true (Except.ok t)).2.conversations chatId).length
      = min ((st.conversations chatId).length + 2) (2 * st.maxHistory + 1) := by
  rw [llmExecute_ok_conv st content chatId t hp, List.length_append,
    llmTrim_length, if_neg (by omega), List.length_append]
  simp only [List.length_cons, List.length_nil]
  omega

theorem llmIterate_len : ∀ (k : Nat) (st : LLMAgentState) (chatId : String)
    (inputs replies : Nat → String),
    (st.provider = "openai" ∨ st.provider = "anthropic") → 1 ≤ st.maxHistory →
    (st.conversations chatId).length ≤ 2 * st.maxHistory + 1 →
    ((llmIterate chatId inputs replies k st).conversations chatId).length
      = min ((st.conversations chatId).length + 2 * k) (2 * st.maxHistory + 1) := by
  intro k
  induction k with
  | zero =>
    intro st chatId inputs replies hp hN hL
    rw [llmIterate]
    omega
  | succ k ih =>
    intro st chatId inputs replies hp hN hL
    rw [llmIterate]
    have hok := llmExecute_ok_len st (inputs k) chatId (replies k) hp hN
    have hfield := llmExecute_fields st (inputs k) chatId true
      (Except.ok (replies k))
    rw [ih _ chatId inputs replies (by rw [hfield.1]; exact hp)
      (by rw [hfield.2]; exact hN) (by rw [hok, hfield.2]; omega)]
    rw [hok, hfield.2]
    omega

/-! ## Claims -/

/-- C4: `should_respond` never responds to the bot's own events, follows the
DM flag for direct messages, applies the guild/channel allow-lists together
with the mention-or-reply-to-bot trigger for guild text channels and
threads, and refuses every other channel kind — exactly the specification's
decision table (`respondSpec`). -/
theorem should_respond_matches_spec (m : DiscordMessage) (botUserId : Nat)
    (agent : AgentRecord) :
    should_respond m botUserId agent = respondSpec m botUserId agent := by
  rw [should_respond, respondSpec]
  by_cases hself : m.authorId = botUserId
  · rw [if_pos hself, if_pos hself]
  · rw [if_neg hself, if_neg hself]
    cases m.channel with
    | dm => rfl
    | other => rfl
    | guildText g c =>
      have hiff : (m.mentions ≠ [] ∧ botUserId ∈ m.mentions)
          ↔ botUserId ∈ m.mentions :=
        ⟨fun h => h.2, fun h => ⟨List.ne_nil_of_mem h, h⟩⟩
      simp only [hiff]
      split_ifs with h1 h2 h3 h4 <;> simp_all <;> tauto

/-- C7 counterexample: `estimate_chunks("")` is `1`, not `⌈0/2000⌉ = 0`; and
for the non-code text `"abcde. abcde. abcde"` with limit 10 the estimate is
2 while `split_message` actually returns 3 segments (greedy sentence packing
plus boundary stripping fragments differently from plain ceiling
division). -/
theorem estimate_chunks_cex :
    estimateChunks ([] : PyStr) 2000 = 1
      ∧ (List.length ([] : PyStr) + 2000 - 1) / 2000 = 0
      ∧ estimateChunks ("abcde. abcde. abcde".data) 10 = 2
      ∧ (splitMessageD ("abcde. abcde. abcde".data) 10).length = 3
      ∧ containsFence ("abcde. abcde. abcde".data) = false := by
  decide

/-- C7 (amended): for nonempty text and positive limit, `estimate_chunks`
returns the ceiling `⌈len/max⌉` without performing the split (on empty text
it returns 1, not 0); it does not in general equal the number of segments
`split_message` returns, even on non-code input. -/
theorem estimate_chunks_ceiling (content : PyStr) (max : Nat) (hm : 0 < max)
    (hne : content ≠ []) :
    estimateChunks content max = (content.length + max - 1) / max := by
  rw [estimateChunks]
  by_cases h : content.length ≤ max
  · rw [if_pos h]
    have hlen : 0 < content.length := List.length_pos.mpr hne
    symm
    apply Nat.div_eq_of_lt_le <;> omega
  · rw [if_neg h]

/-- Witness for `estimate_chunks_ceiling` at `"hello"`, limit 2. -/
theorem estimate_chunks_ceiling_witness :
    estimateChunks ("hello".data) 2 = ("hello".data.length + 2 - 1) / 2 :=
  estimate_chunks_ceiling ("hello".data) 2 (by decide) (by decide)

/-- C5 counterexample: the oversized code block `"```\nAAAAAAAAAAAA\n```"`
(20 characters) split with limit 10 yields a segment of length 20: the
line-wise re-splitting of an oversized block appends each line unchecked, so
a single long line overflows the limit. -/
theorem split_message_length_bound_cex :
    ((splitMessageD ("\x60\x60\x60\nAAAAAAAAAAAA\n\x60\x60\x60".data) 10).map
        List.length) = [7, 20]
      ∧ ((splitMessageD ("\x60\x60\x60\nAAAAAAAAAAAA\n\x60\x60\x60".data) 10).all
          (fun c => c.length ≤ 10)) = false
      ∧ ("\x60\x60\x60\nAAAAAAAAAAAA\n\x60\x60\x60".data).length = 20 := by
  decide

/-- C5 (amended): for positive limit, a text that already fits is returned
as the single unchanged segment, and for text containing no code fence every
returned segment respects the limit; segments from oversized fenced code
blocks can exceed it. -/
theorem split_message_length_bound_amended (content : PyStr) (max : Nat)
    (hm : 0 < max) :
    (content.length ≤ max → splitMessageD content max = [content])
      ∧ (containsFence content = false →
          ∀ c ∈ splitMessageD content max, c.length ≤ max) :=
  ⟨splitMessageD_short content max,
    fun hf => splitMessageD_nofence_bound content max hf⟩

/-- Witness for `split_message_length_bound_amended` at `"aa bb cc dd"`,
limit 4. -/
theorem split_message_length_bound_amended_witness :
    (("aa bb cc dd".data).length ≤ 4 →
        splitMessageD ("aa bb cc dd".data) 4 = ["aa bb cc dd".data])
      ∧ (containsFence ("aa bb cc dd".data) = false →
          ∀ c ∈ splitMessageD ("aa bb cc dd".data) 4, c.length ≤ 4) :=
  split_message_length_bound_amended ("aa bb cc dd".data) 4 (by decide)

/-- C6 counterexample: splitting `"aa\nbb\ncc"` with limit 5 yields
`["aa bb", "cc"]` — the word-joining path replaces the internal newline by a
single space, so the first segment is not even a contiguous substring of the
original text and no chunk-boundary whitespace trimming can explain the
difference; the concatenation also differs from the original. -/
theorem split_message_roundtrip_cex :
    splitMessageD ("aa\nbb\ncc".data) 5 = ["aa bb".data, "cc".data]
      ∧ (List.IsInfix ("aa bb".data) ("aa\nbb\ncc".data) → False)
      ∧ ("aa bb".data ++ "cc".data ≠ "aa\nbb\ncc".data) := by
  refine ⟨by decide, ?_, by decide⟩
  intro h
  exact absurd (decide_eq_true h) (by decide)

/-- C6 (amended): order and non-whitespace content are preserved — for text
without a code fence and positive limit, concatenating the segments
reproduces exactly the original sequence of non-whitespace characters
(whitespace may be trimmed at chunk boundaries or normalised inside
over-long sentences); and a complete fenced code block under the limit,
embedded in otherwise backquote-free text, appears intact in exactly one
returned segment. -/
theorem split_message_roundtrip_amended :
    (∀ (content : PyStr) (max : Nat), 0 < max → containsFence content = false →
        (splitMessageD content max).flatten.filter (fun c => !pyIsSpace c)
          = content.filter (fun c => !pyIsSpace c))
      ∧ (∀ (pre body post : PyStr) (max : Nat),
          '\x60' ∉ pre → '\x60' ∉ body → '\x60' ∉ post →
          (fenceStr ++ body ++ fenceStr).length < max →
          ((splitMessageD (pre ++ (fenceStr ++ body ++ fenceStr) ++ post)
              max).countP (hasBlock (fenceStr ++ body ++ fenceStr))) = 1) :=
  ⟨fun content max hm hf => splitMessageD_nofence_filter content max hm hf,
    fun pre body post max h1 h2 h3 h4 =>
      splitMessage_block_intact pre body post max h1 h2 h3 h4⟩

/-- Witness for `split_message_roundtrip_amended`: the no-fence round-trip
at `"aa\nbb\ncc"` with limit 5, and the block-intactness at
`"text. " ++ "```ab```" ++ " tail"` with limit 30. -/
theorem split_message_roundtrip_amended_witness :
    ((splitMessageD ("aa\nbb\ncc".data) 5).flatten.filter
        (fun c => !pyIsSpace c)
      = ("aa\nbb\ncc".data).filter (fun c => !pyIsSpace c))
      ∧ ((splitMessageD ("text. ".data
            ++ (fenceStr ++ "ab".data ++ fenceStr) ++ " tail".data) 30).countP
          (hasBlock (fenceStr ++ "ab".data ++ fenceStr)) = 1) :=
  ⟨split_message_roundtrip_amended.1 ("aa\nbb\ncc".data) 5 (by decide) (by decide),
    split_message_roundtrip_amended.2 ("text. ".data) ("ab".data) (" tail".data)
      30 (by decide) (by decide) (by decide) (by decide)⟩

/-- C3 counterexample: with history depth `N = 1` (an openai-provider agent)
the stored conversation reaches length 3 after only two successful stateful
calls, violating the claimed bound `≤ 2N = 2`; after `2N + 1 = 3` calls the
length is 3, not the claimed `2N = 2`.  The trim runs before the assistant
turn is appended, so the steady state is `2N + 1`. -/
theorem llm_history_bound_cex :
    ((llmIterate "c" (fun _ => "hi") (fun _ => "ok") 2
        (llmInit "openai" 1)).conversations "c").length = 3
      ∧ ((llmIterate "c" (fun _ => "hi") (fun _ => "ok") 3
          (llmInit "openai" 1)).conversations "c").length = 3
      ∧ ¬(3 ≤ 2 * 1) ∧ 3 ≠ 2 * 1 := by
  decide

/-- C3 (amended): for a supported provider and configured history depth
`N ≥ 1`, every stored conversation stays within `2N + 1` turns across any
`execute` call (the trim to `2N` happens before the assistant turn is
appended), and after `k ≥ N + 1` successful stateful calls on one fresh
conversation — in particular after `2N + 1` calls — the stored length is
exactly `2N + 1`.  (For depth 0 the Python slice `[-0:]` keeps everything
and the history grows without bound.) -/
theorem llm_history_bound_amended :
    (∀ (st : LLMAgentState) (content chatId : String) (useHistory : Bool)
        (gen : Except String String), 1 ≤ st.maxHistory →
        (∀ c, (st.conversations c).length ≤ 2 * st.maxHistory + 1) →
        ∀ c, ((llmExecute st content chatId useHistory gen).2.conversations c).length
          ≤ 2 * st.maxHistory + 1)
      ∧ (∀ (N k : Nat) (provider chatId : String) (inputs replies : Nat → String),
          (provider = "openai" ∨ provider = "anthropic") → 1 ≤ N → N + 1 ≤ k →
          ((llmIterate chatId inputs replies k
              (llmInit provider N)).conversations chatId).length = 2 * N + 1) := by
  constructor
  · intro st content chatId useHistory gen hN hinv
    exact llmExecute_invariant st content chatId useHistory gen hN hinv
  · intro N k provider chatId inputs replies hp hN hk
    have := llmIterate_len k (llmInit provider N) chatId inputs replies hp hN
      (by simp [llmInit])
    rw [this]
    simp only [llmInit]
    omega

/-- Witness for `llm_history_bound_amended`: a depth-2 agent after one call
(invariant part) and after `2·2+1 = 5` calls (exact-length part). -/
theorem llm_history_bound_amended_witness :
    (∀ c, ((llmExecute (llmInit "openai" 2) "hi" "c" true
        (Except.ok "ok")).2.conversations c).length ≤ 2 * 2 + 1)
      ∧ ((llmIterate "c" (fun _ => "hi") (fun _ => "ok") 5
          (llmInit "openai" 2)).conversations "c").length = 2 * 2 + 1 :=
  ⟨by
    have h := llm_history_bound_amended.1 (llmInit "openai" 2) "hi" "c" true
      (Except.ok "ok") (by decide) (fun c => by simp [llmInit])
    simpa [llmInit] using h,
   llm_history_bound_amended.2 2 5 "openai" "c" (fun _ => "hi") (fun _ => "ok")
     (Or.inl rfl) (by decide) (by decide)⟩

/-- C10: on a stateful call the input is stored as a user turn before the
provider is invoked; when the provider raises, that user turn stays stored
(the conversation is mutated despite the error, and for any depth the trim
never removes the just-appended last turn), no assistant turn is appended,
and the returned string is the apology prefix followed by the exception
text. -/
theorem llm_error_turn_retained (st : LLMAgentState) (content chatId e : String)
    (hp : st.provider = "openai" ∨ st.provider = "anthropic") :
    (llmExecute st content chatId true (Except.error e)).1
        = "Sorry, I encountered an error: " ++ e
      ∧ (llmExecute st content chatId true (Except.error e)).2.conversations chatId
          = llmTrim st.maxHistory
              (st.conversations chatId ++ [⟨"user", content⟩])
      ∧ ((llmExecute st content chatId true
            (Except.error e)).2.conversations chatId).getLast?
          = some ⟨"user", content⟩ := by
  have hE := llmExecute_err st content chatId e hp
  refine ⟨by rw [hE], by rw [hE]; exact updateConv_self _ _ _, ?_⟩
  rw [hE]
  show (updateConv st.conversations chatId
      (llmTrim st.maxHistory (st.conversations chatId ++ [⟨"user", content⟩]))
        chatId).getLast? = some ⟨"user", content⟩
  rw [updateConv_self, llmTrim]
  split_ifs with h1 h2
  · exact List.getLast?_concat _
  · rw [List.drop_append_of_le_length (by
      simp only [List.length_append, List.length_cons, List.length_nil] at h1 ⊢
      omega)]
    exact List.getLast?_concat _
  · exact List.getLast?_concat _

/-- Witness for `llm_error_turn_retained` at a concrete failing call. -/
theorem llm_error_turn_retained_witness :
    (llmExecute (llmInit "openai" 1) "hi" "c" true (Except.error "boom")).1
        = "Sorry, I encountered an error: " ++ "boom"
      ∧ (llmExecute (llmInit "openai" 1) "hi" "c" true
            (Except.error "boom")).2.conversations "c"
          = llmTrim 1 (((llmInit "openai" 1).conversations "c")
              ++ [⟨"user", "hi"⟩])
      ∧ ((llmExecute (llmInit "openai" 1) "hi" "c" true
            (Except.error "boom")).2.conversations "c").getLast?
          = some ⟨"user", "hi"⟩ :=
  llm_error_turn_retained (llmInit "openai" 1) "hi" "c" "boom" (Or.inl rfl)

theorem init_new_bot_err (p : BotPool) (a : AgentRecord)
    (h1 : a.id ∉ poolKeys p) (h2 : p.bots.length < p.maxConcurrentBots)
    (h3 : createAgentOk a = false) :
    init_new_bot p a
      = (⟨p.bots, p.nextInstanceId + 1, p.maxConcurrentBots⟩, true) := by
  rw [init_new_bot, if_neg h1, if_neg (by omega)]
  rw [itemStart, if_neg (by simp), if_neg (by simp [h3])]

theorem key_count_zero (p : BotPool) (i : Nat) (h : i ∉ poolKeys p) :
    (p.bots.filter (fun e => e.1 = i)).length = 0 := by
  rw [List.length_eq_zero]
  rw [List.filter_eq_nil_iff]
  intro e he
  simp only [decide_eq_true_eq]
  intro hei
  exact h (hei ▸ List.mem_map_of_mem Prod.fst he)

/-- C2: the pool holds at most one item per identity and never exceeds the
capacity ceiling: a `start` for an already-pooled identity, or with the pool
at capacity, returns without raising and leaves the mapping unchanged; the
pool size never grows past the ceiling; and two consecutive `start` calls
for the same record leave exactly one entry for that identity. -/
theorem pool_start_idempotent_capacity (p : BotPool) (a : AgentRecord) :
    (a.id ∈ poolKeys p → init_new_bot p a = (p, false))
      ∧ (a.id ∉ poolKeys p → p.bots.length ≥ p.maxConcurrentBots →
          init_new_bot p a = (p, false))
      ∧ (p.bots.length ≤ p.maxConcurrentBots →
          (init_new_bot p a).1.bots.length ≤ p.maxConcurrentBots)
      ∧ (a.id ∉ poolKeys p → p.bots.length < p.maxConcurrentBots →
          createAgentOk a = true →
          (((init_new_bot (init_new_bot p a).1 a).1.bots.filter
              (fun e => e.1 = a.id)).length = 1
            ∧ (init_new_bot (init_new_bot p a).1 a).2 = false)) := by
  refine ⟨init_new_bot_dup p a, init_new_bot_full p a, ?_, ?_⟩
  · intro hcap
    by_cases h1 : a.id ∈ poolKeys p
    · rw [init_new_bot_dup p a h1]
      exact hcap
    · by_cases h2 : p.bots.length ≥ p.maxConcurrentBots
      · rw [init_new_bot_full p a h1 h2]
        exact hcap
      · by_cases h3 : createAgentOk a = true
        · rw [init_new_bot_ok p a h1 (by omega) h3]
          simp only [List.length_append, List.length_cons, List.length_nil]
          omega
        · rw [init_new_bot_err p a h1 (by omega)
            (by rw [Bool.eq_false_iff]; exact h3)]
          exact hcap
  · intro h1 h2 h3
    have hfirst := init_new_bot_ok p a h1 h2 h3
    have hkeys : a.id ∈ poolKeys (init_new_bot p a).1 := by
      rw [hfirst, poolKeys_append_one]
      simp
    have hsecond := init_new_bot_dup (init_new_bot p a).1 a hkeys
    rw [hsecond]
    refine ⟨?_, rfl⟩
    rw [hfirst]
    simp only [List.filter_append]
    rw [List.length_append, key_count_zero p a.id h1]
    simp

/-- Witness for `pool_start_idempotent_capacity` at an empty pool of
capacity 2 and a concrete echo record. -/
theorem pool_start_idempotent_capacity_witness :
    ((5 ∈ poolKeys ⟨[], 0, 2⟩ →
        init_new_bot ⟨[], 0, 2⟩ ⟨5, "n", "t", true, true, [], [], "echo", "openai"⟩
          = (⟨[], 0, 2⟩, false))
      ∧ (5 ∉ poolKeys ⟨[], 0, 2⟩ → (⟨[], 0, 2⟩ : BotPool).bots.length ≥ 2 →
          init_new_bot ⟨[], 0, 2⟩ ⟨5, "n", "t", true, true, [], [], "echo", "openai"⟩
            = (⟨[], 0, 2⟩, false))
      ∧ ((⟨[], 0, 2⟩ : BotPool).bots.length ≤ 2 →
          (init_new_bot ⟨[], 0, 2⟩
              ⟨5, "n", "t", true, true, [], [], "echo", "openai"⟩).1.bots.length ≤ 2)
      ∧ (5 ∉ poolKeys ⟨[], 0, 2⟩ → (⟨[], 0, 2⟩ : BotPool).bots.length < 2 →
          createAgentOk ⟨5, "n", "t", true, true, [], [], "echo", "openai"⟩ = true →
          (((init_new_bot (init_new_bot ⟨[], 0, 2⟩
                ⟨5, "n", "t", true, true, [], [], "echo", "openai"⟩).1
              ⟨5, "n", "t", true, true, [], [], "echo", "openai"⟩).1.bots.filter
                (fun e => e.1 = 5)).length = 1
            ∧ (init_new_bot (init_new_bot ⟨[], 0, 2⟩
                ⟨5, "n", "t", true, true, [], [], "echo", "openai"⟩).1
                ⟨5, "n", "t", true, true, [], [], "echo", "openai"⟩).2 = false))) :=
  pool_start_idempotent_capacity ⟨[], 0, 2⟩
    ⟨5, "n", "t", true, true, [], [], "echo", "openai"⟩

/-- C9: `BotPool.init_new_bot` registers a running item for any record that
passes the duplicate and capacity checks and whose agent instance
constructs, for EVERY credential string — including an invalid one.
`BotPoolItem.start` launches the Discord login with `asyncio.create_task`
and returns without awaiting it, so a `LoginFailure` happens inside the
detached background task after `_running` was already set and the item
inserted; nothing is left Stopped and nothing propagates, contradicting the
specified `ConnectFailure` handling. -/
theorem init_new_bot_ignores_credential (p : BotPool) (a : AgentRecord)
    (token : String) (h1 : a.id ∉ poolKeys p)
    (h2 : p.bots.length < p.maxConcurrentBots) (h3 : createAgentOk a = true) :
    (init_new_bot p { a with discordToken := token }).2 = false
      ∧ (init_new_bot p { a with discordToken := token }).1.bots
          = p.bots ++ [(a.id,
              ⟨{ a with discordToken := token }, true, p.nextInstanceId⟩)]
      ∧ (⟨{ a with discordToken := token }, true,
            p.nextInstanceId⟩ : BotPoolItem).running = true := by
  have h := init_new_bot_ok p { a with discordToken := token }
    (by exact h1) h2 (by exact h3)
  exact ⟨by rw [h], by rw [h], rfl⟩

/-- Witness for `init_new_bot_ignores_credential`: an empty pool and an echo
record carrying the clearly invalid token `"not-a-real-token"` still gets a
running item registered. -/
theorem init_new_bot_ignores_credential_witness :
    (init_new_bot ⟨[], 0, 2⟩
        { (⟨7, "n", "t", true, true, [], [], "echo", "openai"⟩ : AgentRecord)
            with discordToken := "not-a-real-token" }).2 = false
      ∧ (init_new_bot ⟨[], 0, 2⟩
          { (⟨7, "n", "t", true, true, [], [], "echo", "openai"⟩ : AgentRecord)
              with discordToken := "not-a-real-token" }).1.bots
          = [] ++ [(7,
              ⟨{ (⟨7, "n", "t", true, true, [], [], "echo", "openai"⟩ : AgentRecord)
                  with discordToken := "not-a-real-token" }, true, 0⟩)]
      ∧ (⟨{ (⟨7, "n", "t", true, true, [], [], "echo", "openai"⟩ : AgentRecord)
            with discordToken := "not-a-real-token" }, true, 0⟩ : BotPoolItem).running
          = true :=
  init_new_bot_ignores_credential ⟨[], 0, 2⟩
    ⟨7, "n", "t", true, true, [], [], "echo", "openai"⟩ "not-a-real-token"
    (by decide) (by decide) (by decide)


/-- C8 counterexample: a record whose only change is a non-credential field
(`respond_to_dm` flipped) is NOT applied to the running item by a
reconciliation cycle: the cycle only compares tokens, and the pool's
in-place-update path (`update_bot`) is never invoked by the scheduler, so
the item keeps the stale record. -/
theorem sync_inplace_update_cex :
    (syncAgents [⟨5, "x", "tok", true, false, [], [], "echo", "openai"⟩]
        ⟨[(5, ⟨⟨5, "x", "tok", true, true, [], [], "echo", "openai"⟩, true, 0⟩)],
          1, 10⟩).1
      = ⟨[(5, ⟨⟨5, "x", "tok", true, true, [], [], "echo", "openai"⟩, true, 0⟩)],
          1, 10⟩
      ∧ ((syncAgents [⟨5, "x", "tok", true, false, [], [], "echo", "openai"⟩]
          ⟨[(5, ⟨⟨5, "x", "tok", true, true, [], [], "echo", "openai"⟩, true, 0⟩)],
            1, 10⟩).1.bots.map (fun e => e.2.agent.respondToDm)) = [true]
      ∧ (⟨5, "x", "tok", true, false, [], [], "echo", "openai"⟩ :
          AgentRecord).respondToDm = false := by
  decide

/-- C8 (amended): with a single running item for identity X, a cycle over a
store whose record for X changed only its credential stops the old item and
starts a fresh item instance (a new allocation) built from the new record,
preserving all its other fields; when the credential is unchanged the cycle
leaves the pool untouched — in particular a non-credential field change is
NOT applied to the item in place by the cycle. -/
theorem sync_credential_rotation (item : BotPoolItem) (r : AgentRecord)
    (nid cap : Nat) (hen : r.discordEnabled = true)
    (hok : createAgentOk r = true) (hcap : 1 ≤ cap)
    (hfresh : item.instanceId < nid) :
    (r.discordToken ≠ item.agent.discordToken →
        syncAgents [r] ⟨[(r.id, item)], nid, cap⟩
          = (⟨[(r.id, ⟨r, true, nid⟩)], nid + 1, cap⟩, false)
          ∧ nid ≠ item.instanceId)
      ∧ (r.discordToken = item.agent.discordToken →
          syncAgents [r] ⟨[(r.id, item)], nid, cap⟩
            = (⟨[(r.id, item)], nid, cap⟩, false)) := by
  constructor
  · intro htok
    refine ⟨?_, by omega⟩
    simp only [syncAgents, List.filter_cons, List.filter_nil, hen]
    simp [runStarts, poolKeys]
    rw [runRestarts_cons_some _ r [] (r.id, item) (by simp)]
    rw [if_pos (by simpa using fun h => htok h.symm)]
    have hstop : stop_bot ⟨[(r.id, item)], nid, cap⟩ r.id = ⟨[], nid, cap⟩ := by
      simp [stop_bot]
    rw [hstop]
    have hinb := init_new_bot_ok ⟨[], nid, cap⟩ r (by simp [poolKeys])
      (by simpa using hcap) hok
    rw [hinb]
    simp [runRestarts]
  · intro htok
    simp only [syncAgents, List.filter_cons, List.filter_nil, hen]
    simp [runStarts, poolKeys]
    rw [runRestarts_cons_some _ r [] (r.id, item) (by simp)]
    rw [if_neg (by simp [htok])]
    simp [runRestarts]

/-- Witness for `sync_credential_rotation`: rotating the token of a running
echo agent replaces its pool item with a fresh instance carrying the new
record. -/
theorem sync_credential_rotation_witness :
    (("tok2" : String) ≠
        (⟨⟨9, "x", "tok1", true, true, [], [], "echo", "openai"⟩, true, 0⟩ :
          BotPoolItem).agent.discordToken →
        syncAgents [⟨9, "x", "tok2", true, true, [], [], "echo", "openai"⟩]
          ⟨[(9, ⟨⟨9, "x", "tok1", true, true, [], [], "echo", "openai"⟩,
              true, 0⟩)], 3, 10⟩
          = (⟨[(9, ⟨⟨9, "x", "tok2", true, true, [], [], "echo", "openai"⟩,
              true, 3⟩)], 4, 10⟩, false)
          ∧ (3 : Nat) ≠ 0)
      ∧ (("tok2" : String) =
          (⟨⟨9, "x", "tok1", true, true, [], [], "echo", "openai"⟩, true, 0⟩ :
            BotPoolItem).agent.discordToken →
          syncAgents [⟨9, "x", "tok2", true, true, [], [], "echo", "openai"⟩]
            ⟨[(9, ⟨⟨9, "x", "tok1", true, true, [], [], "echo", "openai"⟩,
                true, 0⟩)], 3, 10⟩
            = (⟨[(9, ⟨⟨9, "x", "tok1", true, true, [], [], "echo", "openai"⟩,
                true, 0⟩)], 3, 10⟩, false)) :=
  sync_credential_rotation
    ⟨⟨9, "x", "tok1", true, true, [], [], "echo", "openai"⟩, true, 0⟩
    ⟨9, "x", "tok2", true, true, [], [], "echo", "openai"⟩ 3 10
    (by decide) (by decide) (by decide) (by decide)
theorem keys_reconcile (current desired fresh : List Nat)
    (hfresh : ∀ i ∈ fresh, i ∈ desired ∧ i ∉ current)
    (hcov : ∀ i ∈ desired, i ∉ current → i ∈ fresh) :
    ∀ i, i ∈ (current ++ fresh).filter
        (fun i => decide (i ∉ current.filter (fun j => decide (j ∉ desired))))
      ↔ i ∈ desired := by
  intro i
  rw [List.mem_filter, List.mem_append]
  constructor
  · rintro ⟨h1 | h1, h2⟩
    · by_contra hd
      exact (of_decide_eq_true h2)
        (List.mem_filter.mpr ⟨h1, decide_eq_true hd⟩)
    · exact (hfresh i h1).1
  · intro hd
    refine ⟨?_, ?_⟩
    · by_cases hc : i ∈ current
      · exact Or.inl hc
      · exact Or.inr (hcov i hd hc)
    · apply decide_eq_true
      intro hm
      exact (of_decide_eq_true (List.mem_filter.mp hm).2) hd

/-- C1 counterexample: capacity 1, the pool runs agent 1, and the store's
only enabled record is agent 2 — the desired set has size 1, within the
ceiling.  One cycle leaves the pool EMPTY: the cycle issues starts before
stops, so the start of agent 2 is refused against the still-full pool, and
then agent 1 is stopped; the pool identity set `{}` is not the enabled set
`{2}`. -/
theorem syncAgents_one_cycle_not_convergent_cex :
    (syncAgents [⟨2, "b", "tok-b", true, true, [], [], "echo", "openai"⟩]
        ⟨[(1, ⟨⟨1, "a", "tok-a", true, true, [], [], "echo", "openai"⟩,
            true, 0⟩)], 1, 1⟩).2 = false
      ∧ poolKeys (syncAgents
          [⟨2, "b", "tok-b", true, true, [], [], "echo", "openai"⟩]
          ⟨[(1, ⟨⟨1, "a", "tok-a", true, true, [], [], "echo", "openai"⟩,
              true, 0⟩)], 1, 1⟩).1 = []
      ∧ ([(⟨2, "b", "tok-b", true, true, [], [], "echo", "openai"⟩ :
            AgentRecord)].filter (fun r => r.discordEnabled)).map
          (fun r => r.id) = [2]
      ∧ (2 : Nat) ∉ poolKeys (syncAgents
          [⟨2, "b", "tok-b", true, true, [], [], "echo", "openai"⟩]
          ⟨[(1, ⟨⟨1, "a", "tok-a", true, true, [], [], "echo", "openai"⟩,
              true, 0⟩)], 1, 1⟩).1 := by
  decide

/-- C1 (amended): one reconciliation cycle makes the pool's identity set
exactly the enabled-record identity set, provided the pre-stop pool size
plus the number of newly enabled identities stays within the capacity
ceiling (the cycle checks capacity before any stop happens) and every
enabled record's agent instance constructs.  Without the strengthened
capacity margin a single cycle can fall short (see the counterexample). -/
theorem syncAgents_one_cycle_convergence (records : List AgentRecord)
    (p : BotPool) (hndp : (poolKeys p).Nodup)
    (hnde : ((records.filter (fun r => r.discordEnabled)).map
        (fun r => r.id)).Nodup)
    (hok : ∀ r ∈ records, r.discordEnabled = true → createAgentOk r = true)
    (hcap : p.bots.length
        + ((records.filter (fun r => r.discordEnabled)).filter
            (fun a => a.id ∉ poolKeys p)).length ≤ p.maxConcurrentBots) :
    (syncAgents records p).2 = false
      ∧ ∀ i, i ∈ poolKeys (syncAgents records p).1
          ↔ i ∈ (records.filter (fun r => r.discordEnabled)).map
              (fun r => r.id) := by
  have hokE : ∀ a ∈ (records.filter (fun r => r.discordEnabled)).filter
      (fun a => a.id ∉ poolKeys p), createAgentOk a = true := by
    intro a ha
    have h2 := List.mem_filter.mp (List.mem_of_mem_filter ha)
    exact hok a h2.1 (by simpa using h2.2)
  have hfreshE : ∀ a ∈ (records.filter (fun r => r.discordEnabled)).filter
      (fun a => a.id ∉ poolKeys p), a.id ∉ poolKeys p := by
    intro a ha
    simpa using (List.mem_filter.mp ha).2
  have hndE : (((records.filter (fun r => r.discordEnabled)).filter
      (fun a => a.id ∉ poolKeys p)).map (fun r => r.id)).Nodup :=
    hnde.sublist (List.Sublist.map _ (List.filter_sublist _))
  obtain ⟨s1, s2, s3, s4⟩ := runStarts_ok
    ((records.filter (fun r => r.discordEnabled)).filter
      (fun a => a.id ∉ poolKeys p)) p hokE hfreshE hndE hcap
  simp only [syncAgents]
  rw [s1]
  simp only [Bool.false_eq_true, if_false]
  have hkeys1nd : (poolKeys (runStarts p
      ((records.filter (fun r => r.discordEnabled)).filter
        (fun a => a.id ∉ poolKeys p))).1).Nodup := by
    rw [s2]
    refine List.Nodup.append hndp hndE ?_
    intro x hx1 hx2
    simp only [List.mem_map] at hx2
    obtain ⟨a, ha, hai⟩ := hx2
    exact hfreshE a ha (hai ▸ hx1)
  have hp2 := foldl_stop_bots
    ((poolKeys p).filter (fun i => i ∉ (records.filter
      (fun r => r.discordEnabled)).map (fun r => r.id)))
    (runStarts p ((records.filter (fun r => r.discordEnabled)).filter
      (fun a => a.id ∉ poolKeys p))).1
  have hk2 := poolKeys_foldl_stop
    ((poolKeys p).filter (fun i => i ∉ (records.filter
      (fun r => r.discordEnabled)).map (fun r => r.id)))
    (runStarts p ((records.filter (fun r => r.discordEnabled)).filter
      (fun a => a.id ∉ poolKeys p))).1
  have hokK : ∀ a ∈ (records.filter (fun r => r.discordEnabled)).filter
      (fun a => a.id ∈ poolKeys p), createAgentOk a = true := by
    intro a ha
    have h2 := List.mem_filter.mp (List.mem_of_mem_filter ha)
    exact hok a h2.1 (by simpa using h2.2)
  obtain ⟨t1, t2, t3, t4, t5⟩ := runRestarts_ok
    ((records.filter (fun r => r.discordEnabled)).filter
      (fun a => a.id ∈ poolKeys p))
    (((poolKeys p).filter (fun i => i ∉ (records.filter
      (fun r => r.discordEnabled)).map (fun r => r.id))).foldl stop_bot
      (runStarts p ((records.filter (fun r => r.discordEnabled)).filter
        (fun a => a.id ∉ poolKeys p))).1)
    hokK
    (by rw [hk2]; exact hkeys1nd.filter _)
    (by
      rw [hp2]
      simp only
      refine le_trans (le_trans (List.length_filter_le _ _) (le_of_eq s3)) ?_
      rw [s4]
      exact hcap)
  refine ⟨t1, ?_⟩
  intro i
  rw [t2 i, hk2, s2]
  refine keys_reconcile (poolKeys p)
    ((records.filter (fun r => r.discordEnabled)).map (fun r => r.id))
    (((records.filter (fun r => r.discordEnabled)).filter
      (fun a => a.id ∉ poolKeys p)).map (fun r => r.id)) ?_ ?_ i
  · intro j hj
    simp only [List.mem_map] at hj
    obtain ⟨a, ha, hai⟩ := hj
    exact ⟨hai ▸ List.mem_map_of_mem _ (List.mem_of_mem_filter ha),
      hai ▸ hfreshE a ha⟩
  · intro j hj hjc
    simp only [List.mem_map] at hj ⊢
    obtain ⟨a, ha, hai⟩ := hj
    exact ⟨a, List.mem_filter.mpr ⟨ha, by simp [hai, hjc]⟩, hai⟩

/-- Witness for `syncAgents_one_cycle_convergence`: a pool of capacity 2
running agent 1 converges in one cycle to the enabled set `{2}` when the
margin hypothesis holds (size 1 + 1 new ≤ 2). -/
theorem syncAgents_one_cycle_convergence_witness :
    (syncAgents [⟨2, "b", "tok-b", true, true, [], [], "echo", "openai"⟩]
        ⟨[(1, ⟨⟨1, "a", "tok-a", true, true, [], [], "echo", "openai"⟩,
            true, 0⟩)], 1, 2⟩).2 = false
      ∧ ∀ i, i ∈ poolKeys (syncAgents
          [⟨2, "b", "tok-b", true, true, [], [], "echo", "openai"⟩]
          ⟨[(1, ⟨⟨1, "a", "tok-a", true, true, [], [], "echo", "openai"⟩,
              true, 0⟩)], 1, 2⟩).1
          ↔ i ∈ ([(⟨2, "b", "tok-b", true, true, [], [], "echo", "openai"⟩ :
              AgentRecord)].filter (fun r => r.discordEnabled)).map
              (fun r => r.id) :=
  syncAgents_one_cycle_convergence
    [⟨2, "b", "tok-b", true, true, [], [], "echo", "openai"⟩]
    ⟨[(1, ⟨⟨1, "a", "tok-a", true, true, [], [], "echo", "openai"⟩, true, 0⟩)],
      1, 2⟩
    (by decide) (by decide)
    (by intro r hr _; rw [List.mem_singleton.mp hr]; decide)
    (by decide)
